import Mathlib

/-!
Verification of the m2lstr core: well-formed formulas of monadic second-order
logic over strings (src/m2lstr/wff.py), labelled finite automata and their lazy
compositions (src/py/m2lstr/dfa.py), and the translation of formulas into
automata (src/py/m2lstr/translation.py).

States of the various automata are embedded into a single inductive type St:
a base automaton uses the small integers handed out by the default builder
(St.n), an intersection uses pairs (St.pair), and a determinization uses
frozen sets of states, embedded as canonically sorted duplicate-free lists
(St.set).  Python exceptions (assertion failures and missing dictionary keys)
are modelled with Option: a none result stands for an aborted computation,
while some b is a normal return.
-/

namespace M2LStr

/-- Universal state type: scalar states of base automata, pairs for
intersections, frozen sets (canonical lists) for determinizations. -/
inductive St : Type where
  | n : Nat → St
  | pair : St → St → St
  | set : List St → St

mutual

/-- Decidable equality on states. -/
def St.decEq : (a b : St) → Decidable (a = b)
  | .n a, .n b =>
      match Nat.decEq a b with
      | .isTrue h => .isTrue (congrArg St.n h)
      | .isFalse h => .isFalse (fun hh => h (by injection hh))
  | .n _, .pair _ _ => .isFalse (fun h => by injection h)
  | .n _, .set _ => .isFalse (fun h => by injection h)
  | .pair _ _, .n _ => .isFalse (fun h => by injection h)
  | .pair a b, .pair c d =>
      match St.decEq a c, St.decEq b d with
      | .isTrue h1, .isTrue h2 => .isTrue (by rw [h1, h2])
      | .isFalse h1, _ => .isFalse (fun hh => by injection hh with e1 e2; exact h1 e1)
      | _, .isFalse h2 => .isFalse (fun hh => by injection hh with e1 e2; exact h2 e2)
  | .pair _ _, .set _ => .isFalse (fun h => by injection h)
  | .set _, .n _ => .isFalse (fun h => by injection h)
  | .set _, .pair _ _ => .isFalse (fun h => by injection h)
  | .set xs, .set ys =>
      match St.decEqList xs ys with
      | .isTrue h => .isTrue (congrArg St.set h)
      | .isFalse h => .isFalse (fun hh => h (by injection hh))

/-- Decidable equality on lists of states. -/
def St.decEqList : (xs ys : List St) → Decidable (xs = ys)
  | [], [] => .isTrue rfl
  | [], _ :: _ => .isFalse (fun h => by injection h)
  | _ :: _, [] => .isFalse (fun h => by injection h)
  | x :: xs, y :: ys =>
      match St.decEq x y, St.decEqList xs ys with
      | .isTrue h1, .isTrue h2 => .isTrue (by rw [h1, h2])
      | .isFalse h1, _ => .isFalse (fun hh => by injection hh with e1 e2; exact h1 e1)
      | _, .isFalse h2 => .isFalse (fun hh => by injection hh with e1 e2; exact h2 e2)

end

instance : DecidableEq St := St.decEq

mutual

/-- Total comparison on St, used only to canonicalize the list representation
of frozen sets of states. -/
def St.cmp : St → St → Ordering
  | .n a, .n b => compare a b
  | .n _, .pair _ _ => .lt
  | .n _, .set _ => .lt
  | .pair _ _, .n _ => .gt
  | .pair a b, .pair c d => (St.cmp a c).then (St.cmp b d)
  | .pair _ _, .set _ => .lt
  | .set _, .n _ => .gt
  | .set _, .pair _ _ => .gt
  | .set xs, .set ys => St.cmpList xs ys

/-- Lexicographic comparison of lists of states. -/
def St.cmpList : List St → List St → Ordering
  | [], [] => .eq
  | [], _ :: _ => .lt
  | _ :: _, [] => .gt
  | x :: xs, y :: ys => (St.cmp x y).then (St.cmpList xs ys)

end

/-- Insertion into a sorted list of states. -/
def insertSt (a : St) : List St → List St
  | [] => [a]
  | x :: xs => if St.cmp a x = Ordering.gt then x :: insertSt a xs else a :: x :: xs

/-- Insertion sort for lists of states. -/
def sortSt : List St → List St
  | [] => []
  | x :: xs => insertSt x (sortSt xs)

/-- Canonical representation of a finite set of states: duplicates removed,
then sorted.  This models Python frozensets of states, whose equality is
equality of contents. -/
def canon (l : List St) : List St := sortSt l.dedup

theorem mem_insertSt {a x : St} {l : List St} :
    x ∈ insertSt a l ↔ x = a ∨ x ∈ l := by
  induction l with
  | nil => simp [insertSt]
  | cons y ys ih =>
    by_cases h : St.cmp a y = Ordering.gt <;> simp [insertSt, h, ih] <;> tauto

theorem mem_sortSt {x : St} {l : List St} : x ∈ sortSt l ↔ x ∈ l := by
  induction l with
  | nil => simp [sortSt]
  | cons y ys ih => simp [sortSt, mem_insertSt, ih]

theorem mem_canon {x : St} {l : List St} : x ∈ canon l ↔ x ∈ l := by
  simp [canon, mem_sortSt]

variable {α : Type} [DecidableEq α]

/-- Transition symbols: either an alphabet symbol or the distinguished
wildcard RHO_SYMBOL (dfa.py line 33). -/
inductive Sym (α : Type) : Type where
  | rho : Sym α
  | sym : α → Sym α
deriving DecidableEq

/-- Labelled automaton arc (dfa.py lines 24-25): a symbol, a positive and a
negative set of variable names, and a destination state. -/
structure Arc (α : Type) : Type where
  symbol : Sym α
  pos : Finset String
  neg : Finset String
  nextstate : St
deriving DecidableEq

/-- Collection of arcs indexed by symbol (class SymbolToArcsMapping, dfa.py
lines 36-60): the set of symbol keys present, and arc lookup by a concrete
symbol.  A none result of for_symbol models a KeyError (no entry for the
symbol and no RHO_SYMBOL fallback). -/
structure SymbolToArcsMapping (α : Type) [DecidableEq α] : Type where
  keys : Finset (Sym α)
  for_symbol : α → Option (List (Arc α))

/-- Membership test on the symbol keys, possibly via the RHO fallback
(dfa.py lines 52-54). -/
def SymbolToArcsMapping.can_match (m : SymbolToArcsMapping α) (s : Sym α) : Bool :=
  decide (s ∈ m.keys) || decide (Sym.rho ∈ m.keys)

/-- Deterministic finite automaton capability (class DFA, dfa.py lines
82-95): start state, finality predicate, arc lookup per state.  A none
result of arcs_at models a KeyError for an unknown state. -/
structure DFA (α : Type) [DecidableEq α] : Type where
  start : St
  final : St → Bool
  arcs_at : St → Option (SymbolToArcsMapping α)

/-- Arc collection backed by a dictionary as produced by the default builder
for the base automata (class DictionaryArcs, dfa.py lines 63-79): every
symbol of the alphabet is a key, RHO_SYMBOL is never a key, so lookup of a
symbol outside the alphabet raises (none). -/
def DictionaryArcs (alph : Finset α) (f : α → List (Arc α)) :
    SymbolToArcsMapping α :=
  ⟨alph.image Sym.sym, fun a => if a ∈ alph then some (f a) else none⟩

/-- Sequencing of a fallible function over a list; models a Python loop that
may raise at any element. -/
def mapOpt (f : β → Option γ) : List β → Option (List γ)
  | [] => some []
  | x :: xs =>
      match f x with
      | none => none
      | some y =>
          match mapOpt f xs with
          | none => none
          | some ys => some (y :: ys)

/-- Symbol selection of intersect_arcs (dfa.py lines 172-177): the common
symbol, or the concrete one when the other is the wildcard; none when the
symbols are incompatible (the generator then yields no arc). -/
def mergeSymbol (ls rs : Sym α) : Option (Sym α) :=
  if ls = rs ∨ rs = Sym.rho then some ls
  else if ls = Sym.rho then some rs
  else none

/-- Intersection of two arcs (dfa.py lines 168-184).  The two leading input
assertions (pos and neg of each operand are disjoint) become the none cases;
the generator yields zero arcs or one arc. -/
def intersect_arcs (left right : Arc α) : Option (List (Arc α)) :=
  if ¬ left.pos ∩ left.neg = ∅ then none
  else if ¬ right.pos ∩ right.neg = ∅ then none
  else
    match mergeSymbol left.symbol right.symbol with
    | none => some []
    | some s =>
        if (left.pos ∪ right.pos) ∩ (left.neg ∪ right.neg) = ∅ then
          some [⟨s, left.pos ∪ right.pos, left.neg ∪ right.neg,
                 St.pair left.nextstate right.nextstate⟩]
        else some []

/-- Inner loop of IntersectionArcs.for_symbol: one left arc against every
right arc (dfa.py lines 205-207). -/
def intersectRow (x : Arc α) : List (Arc α) → Option (List (Arc α))
  | [] => some []
  | y :: ys =>
      match intersect_arcs x y with
      | none => none
      | some h =>
          match intersectRow x ys with
          | none => none
          | some t => some (h ++ t)

/-- Outer loop of IntersectionArcs.for_symbol: the Cartesian combination of
the two arc lists (dfa.py lines 204-208). -/
def intersectProd : List (Arc α) → List (Arc α) → Option (List (Arc α))
  | [], _ => some []
  | x :: xs, ys =>
      match intersectRow x ys with
      | none => none
      | some h =>
          match intersectProd xs ys with
          | none => none
          | some t => some (h ++ t)

/-- Arc index of the intersection of two DFAs (class IntersectionArcs,
dfa.py lines 187-208). -/
def IntersectionArcs (l r : SymbolToArcsMapping α) : SymbolToArcsMapping α :=
  ⟨(r.keys.filter fun s => l.can_match s = true) ∪
     (l.keys.filter fun s => r.can_match s = true),
   fun a =>
     match l.for_symbol a, r.for_symbol a with
     | some la, some ra => intersectProd la ra
     | _, _ => none⟩

/-- Lazy intersection of two DFAs (class IntersectionDFA, dfa.py lines
211-229).  States that are not pairs can never be reached from the pair
start state; their finality is junk (Python would raise on unpacking). -/
def IntersectionDFA (l r : DFA α) : DFA α :=
  ⟨St.pair l.start r.start,
   fun s => match s with
     | .pair a b => l.final a && r.final b
     | _ => false,
   fun s => match s with
     | .pair a b =>
         match l.arcs_at a, r.arcs_at b with
         | some il, some ir => some (IntersectionArcs il ir)
         | _, _ => none
     | _ => none⟩

/-- Lazy complement of a DFA (class ComplementDFA, dfa.py lines 232-246):
same start and arcs, finality negated. -/
def ComplementDFA (d : DFA α) : DFA α :=
  ⟨d.start, fun s => ! d.final s, d.arcs_at⟩

/-- Projection of a single arc onto the complement of one variable
(body of ProjectedArcs.for_symbol, dfa.py lines 263-275).  The assertion
failure (variable in both pos and neg) becomes none. -/
def projectArc (v : String) (arc : Arc α) : Option (Arc α) :=
  if v ∈ arc.pos then
    if v ∈ arc.neg then none
    else some ⟨arc.symbol, arc.pos.erase v, arc.neg, arc.nextstate⟩
  else if v ∈ arc.neg then
    some ⟨arc.symbol, arc.pos, arc.neg.erase v, arc.nextstate⟩
  else some arc

/-- Arc index for the projection of a DFA (class ProjectedArcs, dfa.py lines
249-275). -/
def ProjectedArcs (m : SymbolToArcsMapping α) (v : String) :
    SymbolToArcsMapping α :=
  ⟨m.keys, fun a => (m.for_symbol a).bind (mapOpt (projectArc v))⟩

/-- Lazy projection of a finite automaton (class ProjectedNFA, dfa.py lines
278-293). -/
def ProjectedNFA (d : DFA α) (v : String) : DFA α :=
  ⟨d.start, d.final, fun s => (d.arcs_at s).map (fun m => ProjectedArcs m v)⟩

/-- Concatenation of the arc lists contributed by the members of a
macro-state (the nested iteration of DeterminizedArcs.for_symbol). -/
def joinAll (xss : List (List (Arc α))) : List (Arc α) :=
  xss.foldr (fun l acc => l ++ acc) []

/-- Variable names occurring in pos or neg of any listed arc (the variables
set of DeterminizedArcs.for_symbol, dfa.py lines 315-319). -/
def arcVariables (arcs : List (Arc α)) : Finset String :=
  arcs.foldr (fun arc acc => arc.pos ∪ arc.neg ∪ acc) ∅

/-- Lexicographic comparison of character lists, by code point. -/
def charsLe : List Char → List Char → Bool
  | [], _ => true
  | _ :: _, [] => false
  | x :: xs, y :: ys =>
      if x < y then true else if y < x then false else charsLe xs ys

/-- Total order on variable names used to enumerate a finite set of names in
a canonical sequence. -/
def strLe (a b : String) : Prop := charsLe a.data b.data = true

instance : DecidableRel strLe := fun _ _ => instDecidableEqBool _ _

theorem charsLe_total (a b : List Char) : charsLe a b = true ∨ charsLe b a = true := by
  induction a generalizing b with
  | nil => left; rfl
  | cons x xs ih =>
    cases b with
    | nil => right; rfl
    | cons y ys =>
      rcases lt_trichotomy x y with h | h | h
      · left; simp [charsLe, h]
      · subst h; simpa [charsLe] using ih ys
      · right; simp [charsLe, h]

theorem charsLe_trans {a b c : List Char} (h1 : charsLe a b = true)
    (h2 : charsLe b c = true) : charsLe a c = true := by
  induction a generalizing b c with
  | nil => rfl
  | cons x xs ih =>
    cases b with
    | nil => simp [charsLe] at h1
    | cons y ys =>
      cases c with
      | nil => simp [charsLe] at h2
      | cons z zs =>
        simp only [charsLe] at h1 h2 ⊢
        by_cases hxy : x < y
        · have hyz : y ≤ z := by
            by_contra hc
            simp [if_neg (not_lt_of_lt (lt_of_not_le hc)), lt_of_not_le hc] at h2
          simp [lt_of_lt_of_le hxy hyz]
        · by_cases hyx : y < x
          · simp [hxy, hyx] at h1
          · have hxy2 : x = y := le_antisymm (not_lt.mp hyx) (not_lt.mp hxy)
            subst hxy2
            by_cases hxz : x < z
            · simp [hxz]
            · by_cases hzx : z < x
              · simp [hxz, hzx] at h2
              · simp only [if_neg hxz, if_neg hzx] at h2 ⊢
                simp only [if_neg hxy, if_neg hxy] at h1
                exact ih h1 h2

theorem charsLe_antisymm {a b : List Char} (h1 : charsLe a b = true)
    (h2 : charsLe b a = true) : a = b := by
  induction a generalizing b with
  | nil =>
    cases b with
    | nil => rfl
    | cons y ys => simp [charsLe] at h2
  | cons x xs ih =>
    cases b with
    | nil => simp [charsLe] at h1
    | cons y ys =>
      simp only [charsLe] at h1 h2
      by_cases hxy : x < y
      · simp [if_neg (lt_asymm hxy), if_pos hxy] at h2
      · by_cases hyx : y < x
        · simp [hxy, hyx] at h1
        · have hxy2 : x = y := le_antisymm (not_lt.mp hyx) (not_lt.mp hxy)
          subst hxy2
          simp only [if_neg hxy] at h1 h2
          rw [ih h1 h2]

instance : IsTotal String strLe :=
  ⟨fun a b => charsLe_total a.data b.data⟩

instance : IsTrans String strLe :=
  ⟨fun _ _ _ h1 h2 => charsLe_trans h1 h2⟩

instance : IsAntisymm String strLe :=
  ⟨fun a b h1 h2 => by
    cases a; cases b
    exact congrArg String.mk (charsLe_antisymm h1 h2)⟩

theorem insertionSort_strLe_eq {a b : List String} (hab : a.Perm b) :
    a.insertionSort strLe = b.insertionSort strLe :=
  List.eq_of_perm_of_sorted
    (((List.perm_insertionSort strLe a).trans hab).trans
      (List.perm_insertionSort strLe b).symm)
    (List.sorted_insertionSort strLe a) (List.sorted_insertionSort strLe b)

/-- Canonical enumeration of a finite set of variable names as a sorted
list; models iteration over a Python set of strings, whose order is
observably irrelevant in the determinization. -/
def sortedList (V : Finset String) : List String :=
  Quotient.lift (fun l : List String => l.insertionSort strLe)
    (fun _ _ hab => insertionSort_strLe_eq hab) V.val

theorem sortedList_coe (V : Finset String) :
    (↑(sortedList V) : Multiset String) = V.val := by
  rcases V with ⟨m, hm⟩
  induction m using Quotient.inductionOn with
  | h l => exact Quot.sound (List.perm_insertionSort strLe l)

theorem mem_sortedList {x : String} {V : Finset String} :
    x ∈ sortedList V ↔ x ∈ V := by
  have h := sortedList_coe V
  constructor
  · intro hx
    have : x ∈ (↑(sortedList V) : Multiset String) := by simpa using hx
    rw [h] at this
    exact this
  · intro hx
    have : x ∈ (↑(sortedList V) : Multiset String) := by
      rw [h]; exact hx
    simpa using this

theorem nodup_sortedList (V : Finset String) : (sortedList V).Nodup := by
  have h := sortedList_coe V
  have := V.nodup
  rw [← h] at this
  simpa using this

theorem length_sortedList (V : Finset String) : (sortedList V).length = V.card := by
  have h := congrArg Multiset.card (sortedList_coe V)
  rw [Multiset.coe_card] at h
  exact h

theorem toFinset_sortedList (V : Finset String) : (sortedList V).toFinset = V := by
  apply Finset.ext
  intro x
  simp [List.mem_toFinset, mem_sortedList]

/-- All subsets of the set enumerated by a list, as finite sets; models the
enumeration of itertools.combinations for every size k (dfa.py lines
321-325). -/
def subsetsOf : List String → List (Finset String)
  | [] => [∅]
  | x :: xs => subsetsOf xs ++ (subsetsOf xs).map (insert x)

/-- Enumeration of all subsets of a finite set of variable names. -/
def powersetList (V : Finset String) : List (Finset String) :=
  subsetsOf (sortedList V)

/-- Arc list emitted by the determinization for one symbol, given the arc
lists fired by the members of the macro-state: enumerate every subset P of
the occurring variable set V, with complement N = V minus P, and aggregate
the nextstates of all arcs whose neg avoids P and whose pos avoids N
(body of DeterminizedArcs.for_symbol, dfa.py lines 313-335). -/
def detArcsFor (a : α) (arcss : List (List (Arc α))) : List (Arc α) :=
  (powersetList (arcVariables (joinAll arcss))).map fun P =>
    ⟨Sym.sym a, P, arcVariables (joinAll arcss) \ P,
     St.set (canon ((joinAll arcss).filterMap fun arc =>
       if P ∩ arc.neg = ∅ ∧ (arcVariables (joinAll arcss) \ P) ∩ arc.pos = ∅
       then some arc.nextstate else none))⟩

/-- Arc index for a determinized automaton (class DeterminizedArcs, dfa.py
lines 296-335). -/
def DeterminizedArcs (ms : List (SymbolToArcsMapping α)) :
    SymbolToArcsMapping α :=
  ⟨ms.foldr (fun m acc => m.keys ∪ acc) ∅,
   fun a => (mapOpt (fun m => m.for_symbol a) ms).map (detArcsFor a)⟩

/-- Lazy determinization of a finite automaton (class DeterminizedDFA,
dfa.py lines 338-352). -/
def DeterminizedDFA (d : DFA α) : DFA α :=
  ⟨St.set (canon [d.start]),
   fun s => match s with
     | .set xs => xs.any d.final
     | _ => false,
   fun s => match s with
     | .set xs => (mapOpt d.arcs_at xs).map DeterminizedArcs
     | _ => none⟩

/-- One step of the acceptor (function transition, dfa.py lines 355-359):
collect the set of nextstates over all arcs for the symbol and require
exactly one; the assertion failure becomes none. -/
def transition (d : DFA α) (s : St) (a : α) : Option St :=
  match d.arcs_at s with
  | none => none
  | some m =>
      match m.for_symbol a with
      | none => none
      | some arcs =>
          match (arcs.map (fun arc => arc.nextstate)).dedup with
          | [x] => some x
          | _ => none

/-- Membership test of a sequence of symbols (function accepts, dfa.py lines
362-367). -/
def accepts (d : DFA α) (seq : List α) : Option Bool :=
  (seq.foldlM (transition d) d.start).map d.final

/-- A first-order or second-order variable (class Variable, wff.py lines
18-58).  The constructor assertion restricts order to 1 or 2; formulas built
through the public constructors only contain such variables. -/
structure Variable : Type where
  name : String
  order : Nat
deriving DecidableEq

/-- Well-formed formulas (wff.py lines 61-289), parameterized by the type of
alphabet symbols appearing in Symbol atoms. -/
inductive WFF (α : Type) : Type where
  | Exists : Variable → WFF α → WFF α
  | Forall : Variable → WFF α → WFF α
  | Not : WFF α → WFF α
  | And : WFF α → WFF α → WFF α
  | If : WFF α → WFF α → WFF α
  | Or : WFF α → WFF α → WFF α
  | ContainedIn : Variable → Variable → WFF α
  | Equal : Variable → Variable → WFF α
  | Less : Variable → Variable → WFF α
  | Singleton : Variable → WFF α
  | Symbol : α → Variable → WFF α
deriving DecidableEq

/-- First rewriting pass (class ConnectiveEliminationVisitor, wff.py lines
394-404): eliminates Forall, If and Or using De Morgan dualities; other
compound forms are rebuilt from recursively rewritten children and atomic
predicates pass through unchanged. -/
def connective_elimination : WFF α → WFF α
  | .Exists v b => .Exists v (connective_elimination b)
  | .Forall v b => .Not (.Exists v (.Not (connective_elimination b)))
  | .Not b => .Not (connective_elimination b)
  | .And l r => .And (connective_elimination l) (connective_elimination r)
  | .If l r =>
      .Not (.And (connective_elimination l) (.Not (connective_elimination r)))
  | .Or l r =>
      .Not (.And (.Not (connective_elimination l))
                 (.Not (connective_elimination r)))
  | φ => φ

/-- The make_not hook of DoubleNegationEliminationVisitor (wff.py lines
410-413): strip a double negation at this node. -/
def make_not_dne : WFF α → WFF α
  | .Not b => b
  | b => .Not b

/-- Second rewriting pass (class DoubleNegationEliminationVisitor, wff.py
lines 407-413): eliminates double negation bottom-up. -/
def double_negation_elimination : WFF α → WFF α
  | .Exists v b => .Exists v (double_negation_elimination b)
  | .Forall v b => .Forall v (double_negation_elimination b)
  | .Not b => make_not_dne (double_negation_elimination b)
  | .And l r => .And (double_negation_elimination l) (double_negation_elimination r)
  | .If l r => .If (double_negation_elimination l) (double_negation_elimination r)
  | .Or l r => .Or (double_negation_elimination l) (double_negation_elimination r)
  | φ => φ

/-- The make_exists hook of FirstOrderReplacementVisitor (wff.py lines
419-427): a first-order quantifier becomes a second-order quantifier over a
variable of the same name, with a Singleton guard conjoined on the left. -/
def make_exists_fo (v : Variable) (b : WFF α) : WFF α :=
  if v.order = 1 then
    .Exists ⟨v.name, 2⟩ (.And (.Singleton ⟨v.name, 2⟩) b)
  else
    .Exists v b

/-- Third rewriting pass (class FirstOrderReplacementVisitor, wff.py lines
416-427): replaces first-order with second-order quantification. -/
def first_order_replacement : WFF α → WFF α
  | .Exists v b => make_exists_fo v (first_order_replacement b)
  | .Forall v b => .Forall v (first_order_replacement b)
  | .Not b => .Not (first_order_replacement b)
  | .And l r => .And (first_order_replacement l) (first_order_replacement r)
  | .If l r => .If (first_order_replacement l) (first_order_replacement r)
  | .Or l r => .Or (first_order_replacement l) (first_order_replacement r)
  | φ => φ

/-- Simplification of a formula into normal form (function simplify, wff.py
lines 430-433): the three passes composed in sequence. -/
def simplify (φ : WFF α) : WFF α :=
  first_order_replacement (double_negation_elimination (connective_elimination φ))

/-- Base automaton accepting everything (function universal_dfa,
translation.py lines 61-68). -/
def universal_dfa (alph : Finset α) : DFA α :=
  ⟨St.n 0,
   fun s => decide (s = St.n 0),
   fun s =>
     if s = St.n 0 then
       some (DictionaryArcs alph fun a => [⟨Sym.sym a, ∅, ∅, St.n 0⟩])
     else none⟩

/-- Base automaton for the Symbol predicate (function symbol_dfa,
translation.py lines 71-84).  The leading assertion (the symbol belongs to
the alphabet) becomes the none case. -/
def symbol_dfa (symb : α) (v : Variable) (alph : Finset α) : Option (DFA α) :=
  if symb ∈ alph then
    some ⟨St.n 0,
      fun s => decide (s = St.n 0),
      fun s =>
        if s = St.n 0 then
          some (DictionaryArcs alph fun a =>
            [⟨Sym.sym a, ∅, {v.name}, St.n 0⟩,
             ⟨Sym.sym a, {v.name}, ∅, if a = symb then St.n 0 else St.n 1⟩])
        else if s = St.n 1 then
          some (DictionaryArcs alph fun a => [⟨Sym.sym a, ∅, ∅, St.n 1⟩])
        else none⟩
  else none

/-- Base automaton for the Equal predicate (function equal_dfa,
translation.py lines 87-104). -/
def equal_dfa (left right : Variable) (alph : Finset α) : DFA α :=
  if left.name = right.name then universal_dfa alph
  else
    ⟨St.n 0,
     fun s => decide (s = St.n 0),
     fun s =>
       if s = St.n 0 then
         some (DictionaryArcs alph fun a =>
           [⟨Sym.sym a, ∅, {left.name, right.name}, St.n 0⟩,
            ⟨Sym.sym a, {left.name, right.name}, ∅, St.n 0⟩,
            ⟨Sym.sym a, {left.name}, {right.name}, St.n 1⟩,
            ⟨Sym.sym a, {right.name}, {left.name}, St.n 1⟩])
       else if s = St.n 1 then
         some (DictionaryArcs alph fun a => [⟨Sym.sym a, ∅, ∅, St.n 1⟩])
       else none⟩

/-- Base automaton for the ContainedIn predicate (function contained_in_dfa,
translation.py lines 107-123). -/
def contained_in_dfa (left right : Variable) (alph : Finset α) : DFA α :=
  if left.name = right.name then universal_dfa alph
  else
    ⟨St.n 0,
     fun s => decide (s = St.n 0),
     fun s =>
       if s = St.n 0 then
         some (DictionaryArcs alph fun a =>
           [⟨Sym.sym a, ∅, {left.name}, St.n 0⟩,
            ⟨Sym.sym a, {left.name, right.name}, ∅, St.n 0⟩,
            ⟨Sym.sym a, {left.name}, {right.name}, St.n 1⟩])
       else if s = St.n 1 then
         some (DictionaryArcs alph fun a => [⟨Sym.sym a, ∅, ∅, St.n 1⟩])
       else none⟩

/-- Base automaton for the Singleton predicate (function singleton_dfa,
translation.py lines 126-140). -/
def singleton_dfa (v : Variable) (alph : Finset α) : DFA α :=
  ⟨St.n 0,
   fun s => decide (s = St.n 1),
   fun s =>
     if s = St.n 0 then
       some (DictionaryArcs alph fun a =>
         [⟨Sym.sym a, ∅, {v.name}, St.n 0⟩,
          ⟨Sym.sym a, {v.name}, ∅, St.n 1⟩])
     else if s = St.n 1 then
       some (DictionaryArcs alph fun a =>
         [⟨Sym.sym a, ∅, {v.name}, St.n 1⟩,
          ⟨Sym.sym a, {v.name}, ∅, St.n 2⟩])
     else if s = St.n 2 then
       some (DictionaryArcs alph fun a => [⟨Sym.sym a, ∅, ∅, St.n 2⟩])
     else none⟩

/-- Base automaton for the Less predicate (function less_dfa, translation.py
lines 163-182). -/
def less_dfa (left right : Variable) (alph : Finset α) : DFA α :=
  ⟨St.n 0,
   fun s => decide (s = St.n 0 ∨ s = St.n 1),
   fun s =>
     if s = St.n 0 then
       some (DictionaryArcs alph fun a =>
         [⟨Sym.sym a, {left.name, right.name}, ∅, St.n 2⟩,
          ⟨Sym.sym a, ∅, {left.name, right.name}, St.n 0⟩,
          ⟨Sym.sym a, {left.name}, {right.name}, St.n 0⟩,
          ⟨Sym.sym a, {right.name}, {left.name}, St.n 1⟩])
     else if s = St.n 1 then
       some (DictionaryArcs alph fun a =>
         [⟨Sym.sym a, ∅, {left.name}, St.n 1⟩,
          ⟨Sym.sym a, {left.name}, ∅, St.n 2⟩])
     else if s = St.n 2 then
       some (DictionaryArcs alph fun a => [⟨Sym.sym a, ∅, ∅, St.n 2⟩])
     else none⟩

/-- Recursive translation of an already simplified formula into a DFA (class
TranslationVisitor, translation.py lines 23-58).  The Forall, If and Or
cases hit the unimplemented base visitor (wff.py lines 298-311), modelled as
none. -/
def translation_visit (alph : Finset α) : WFF α → Option (DFA α)
  | .Exists v b =>
      (translation_visit alph b).map (fun bd => DeterminizedDFA (ProjectedNFA bd v.name))
  | .Not b =>
      (translation_visit alph b).map ComplementDFA
  | .And l r =>
      match translation_visit alph l, translation_visit alph r with
      | some ld, some rd => some (IntersectionDFA ld rd)
      | _, _ => none
  | .Symbol s v => symbol_dfa s v alph
  | .Equal l r => some (equal_dfa l r alph)
  | .ContainedIn l r => some (contained_in_dfa l r alph)
  | .Singleton v => some (singleton_dfa v alph)
  | .Less l r => some (less_dfa l r alph)
  | .Forall _ _ => none
  | .If _ _ => none
  | .Or _ _ => none

/-- Translation of a well-formed formula into a DFA (function translate,
translation.py lines 185-188): simplify, then visit. -/
def translate (φ : WFF α) (alph : Finset α) : Option (DFA α) :=
  translation_visit alph (simplify φ)

/-! Statement-level predicates about formulas, used to express the claims. -/

/-- Free variable names of a formula; binding is by name. -/
def FV : WFF α → Finset String
  | .Exists v b => (FV b).erase v.name
  | .Forall v b => (FV b).erase v.name
  | .Not b => FV b
  | .And l r => FV l ∪ FV r
  | .If l r => FV l ∪ FV r
  | .Or l r => FV l ∪ FV r
  | .ContainedIn l r => {l.name, r.name}
  | .Equal l r => {l.name, r.name}
  | .Less l r => {l.name, r.name}
  | .Singleton v => {v.name}
  | .Symbol _ v => {v.name}

/-- Whether a formula is an atomic predicate. -/
def isAtomic : WFF α → Bool
  | .ContainedIn _ _ => true
  | .Equal _ _ => true
  | .Less _ _ => true
  | .Singleton _ => true
  | .Symbol _ _ => true
  | _ => false

/-- Normal form as described by the specification: only Exists with an
order-2 bound variable, Not, And, and the atomic predicates. -/
def NF : WFF α → Bool
  | .Exists v b => decide (v.order = 2) && NF b
  | .Not b => NF b
  | .And l r => NF l && NF r
  | φ => isAtomic φ

/-- Whether a formula contains no Forall, If or Or node. -/
def fioFree : WFF α → Bool
  | .Exists _ b => fioFree b
  | .Forall _ _ => false
  | .Not b => fioFree b
  | .And l r => fioFree l && fioFree r
  | .If _ _ => false
  | .Or _ _ => false
  | _ => true

/-- Whether every quantifier of the formula binds a variable of order 1 or 2,
which the Variable constructor assertion guarantees for formulas built
through the public interface. -/
def OrdersValid : WFF α → Bool
  | .Exists v b => (decide (v.order = 1) || decide (v.order = 2)) && OrdersValid b
  | .Forall v b => (decide (v.order = 1) || decide (v.order = 2)) && OrdersValid b
  | .Not b => OrdersValid b
  | .And l r => OrdersValid l && OrdersValid r
  | .If l r => OrdersValid l && OrdersValid r
  | .Or l r => OrdersValid l && OrdersValid r
  | _ => true

/-- Whether every Less atom of the formula relates two distinct variable
names. -/
def LessOk : WFF α → Bool
  | .Exists _ b => LessOk b
  | .Forall _ b => LessOk b
  | .Not b => LessOk b
  | .And l r => LessOk l && LessOk r
  | .If l r => LessOk l && LessOk r
  | .Or l r => LessOk l && LessOk r
  | .Less l r => decide (l.name ≠ r.name)
  | _ => true

/-- Whether every Symbol atom of the formula uses a symbol of the given
alphabet. -/
def SymOk (alph : Finset α) : WFF α → Bool
  | .Exists _ b => SymOk alph b
  | .Forall _ b => SymOk alph b
  | .Not b => SymOk alph b
  | .And l r => SymOk alph l && SymOk alph r
  | .If l r => SymOk alph l && SymOk alph r
  | .Or l r => SymOk alph l && SymOk alph r
  | .Symbol s _ => decide (s ∈ alph)
  | _ => true

/-! Properties of the simplifier. -/

theorem fioFree_connective_elimination (φ : WFF α) :
    fioFree (connective_elimination φ) = true := by
  induction φ <;> simp [connective_elimination, fioFree, *]

theorem fioFree_make_not_dne {φ : WFF α} (h : fioFree φ = true) :
    fioFree (make_not_dne φ) = true := by
  cases φ <;> simpa [make_not_dne, fioFree] using h

theorem fioFree_double_negation_elimination {φ : WFF α} (h : fioFree φ = true) :
    fioFree (double_negation_elimination φ) = true := by
  induction φ with
  | Exists v b ih =>
    simp only [fioFree] at h
    simpa [double_negation_elimination, fioFree] using ih h
  | Not b ih =>
    simp only [fioFree] at h
    exact fioFree_make_not_dne (by simpa [double_negation_elimination] using ih h)
  | And l r ihl ihr =>
    simp only [fioFree, Bool.and_eq_true] at h
    simp [double_negation_elimination, fioFree, ihl h.1, ihr h.2]
  | Forall v b ih => simp [fioFree] at h
  | If l r ihl ihr => simp [fioFree] at h
  | Or l r ihl ihr => simp [fioFree] at h
  | _ => simp [double_negation_elimination, fioFree]

theorem OrdersValid_connective_elimination {φ : WFF α} (h : OrdersValid φ = true) :
    OrdersValid (connective_elimination φ) = true := by
  induction φ <;>
    simp_all [connective_elimination, OrdersValid]

theorem OrdersValid_make_not_dne {φ : WFF α} (h : OrdersValid φ = true) :
    OrdersValid (make_not_dne φ) = true := by
  cases φ <;> simpa [make_not_dne, OrdersValid] using h

theorem OrdersValid_double_negation_elimination {φ : WFF α}
    (h : OrdersValid φ = true) :
    OrdersValid (double_negation_elimination φ) = true := by
  induction φ with
  | Exists v b ih =>
    simp only [OrdersValid, Bool.and_eq_true] at h
    simp [double_negation_elimination, OrdersValid, h.1, ih h.2]
  | Forall v b ih =>
    simp only [OrdersValid, Bool.and_eq_true] at h
    simp [double_negation_elimination, OrdersValid, h.1, ih h.2]
  | Not b ih =>
    simp only [OrdersValid] at h
    exact OrdersValid_make_not_dne (by simpa [double_negation_elimination] using ih h)
  | And l r ihl ihr =>
    simp only [OrdersValid, Bool.and_eq_true] at h
    simp [double_negation_elimination, OrdersValid, ihl h.1, ihr h.2]
  | If l r ihl ihr =>
    simp only [OrdersValid, Bool.and_eq_true] at h
    simp [double_negation_elimination, OrdersValid, ihl h.1, ihr h.2]
  | Or l r ihl ihr =>
    simp only [OrdersValid, Bool.and_eq_true] at h
    simp [double_negation_elimination, OrdersValid, ihl h.1, ihr h.2]
  | _ => simp [double_negation_elimination, OrdersValid]

theorem NF_first_order_replacement {φ : WFF α} (hf : fioFree φ = true)
    (ho : OrdersValid φ = true) :
    NF (first_order_replacement φ) = true := by
  induction φ with
  | Exists v b ih =>
    simp only [fioFree] at hf
    simp only [OrdersValid, Bool.and_eq_true, Bool.or_eq_true,
      decide_eq_true_eq] at ho
    have hb := ih hf ho.2
    rcases ho.1 with h1 | h2
    · simp [first_order_replacement, make_exists_fo, h1, NF, isAtomic, hb]
    · by_cases h1 : v.order = 1
      · simp [first_order_replacement, make_exists_fo, h1, NF, isAtomic, hb]
      · simp [first_order_replacement, make_exists_fo, h1, NF, h2, hb]
  | Not b ih =>
    simp only [fioFree] at hf
    simp only [OrdersValid] at ho
    simpa [first_order_replacement, NF] using ih hf ho
  | And l r ihl ihr =>
    simp only [fioFree, Bool.and_eq_true] at hf
    simp only [OrdersValid, Bool.and_eq_true] at ho
    simp [first_order_replacement, NF, ihl hf.1 ho.1, ihr hf.2 ho.2]
  | Forall v b ih => simp [fioFree] at hf
  | If l r ihl ihr => simp [fioFree] at hf
  | Or l r ihl ihr => simp [fioFree] at hf
  | _ => simp [first_order_replacement, NF, isAtomic]

/-- Claim C2: for every formula φ (with well-ordered quantified variables, as
the Variable constructor assertion guarantees), simplify(φ) is in normal
form: only Exists nodes binding an order-2 variable, Not, And and the atomic
predicates remain, with no Forall, If or Or node and no first-order
existential; and the first-order replacement pass rewrites each
Exists(v, φ) with v of order 1 to Exists(v', And(Singleton(v'), φ)) where
v' has the same name and order 2. -/
theorem C2_simplify_normal_form :
    (∀ φ : WFF α, OrdersValid φ = true → NF (simplify φ) = true) ∧
    (∀ (v : Variable) (b : WFF α), v.order = 1 →
      first_order_replacement (WFF.Exists v b) =
        WFF.Exists ⟨v.name, 2⟩ (WFF.And (WFF.Singleton ⟨v.name, 2⟩)
          (first_order_replacement b))) := by
  constructor
  · intro φ ho
    exact NF_first_order_replacement
      (fioFree_double_negation_elimination (fioFree_connective_elimination φ))
      (OrdersValid_double_negation_elimination
        (OrdersValid_connective_elimination ho))
  · intro v b h1
    simp [first_order_replacement, make_exists_fo, h1]

/-- Witness for C2, at the formula ∀x.(a(x) ∨ b(x)) from the repository's
unit test and at a concrete first-order quantifier. -/
theorem C2_simplify_normal_form_witness :
    NF (simplify (WFF.Forall ⟨"x", 1⟩
        (WFF.Or (WFF.Symbol 0 ⟨"x", 1⟩) (WFF.Symbol 1 ⟨"x", 1⟩)) : WFF Nat)) = true ∧
    first_order_replacement (WFF.Exists ⟨"x", 1⟩
        (WFF.Equal ⟨"x", 1⟩ ⟨"y", 1⟩) : WFF Nat) =
      WFF.Exists ⟨"x", 2⟩ (WFF.And (WFF.Singleton ⟨"x", 2⟩)
        (WFF.Equal ⟨"x", 1⟩ ⟨"y", 1⟩)) :=
  ⟨C2_simplify_normal_form.1 _ (by decide),
   C2_simplify_normal_form.2 ⟨"x", 1⟩ _ rfl⟩

/-- Claim C8: the base automata for Singleton(X) and Less(X, Y) are exactly
those of the specification table: three states s0 = 0, f = 1, sink = 2 with
s0 the start; Singleton is final exactly at f and has, for each alphabet
symbol, the arcs s0→s0 (neg X), s0→f (pos X), f→f (neg X), f→sink (pos X),
sink→sink; Less is final exactly at s0 and f and has the arcs s0→sink
(pos X Y), s0→s0 (neg X Y), s0→s0 (pos X neg Y), s0→f (pos Y neg X),
f→f (neg X), f→sink (pos X), sink→sink. -/
theorem C8_singleton_less_tables (alph : Finset α) (x y : Variable) (a : α)
    (ha : a ∈ alph) :
    (singleton_dfa x alph).start = St.n 0 ∧
    (∀ s, (singleton_dfa x alph).final s = decide (s = St.n 1)) ∧
    ((singleton_dfa x alph).arcs_at (St.n 0)).bind (fun m => m.for_symbol a) =
      some [⟨Sym.sym a, ∅, {x.name}, St.n 0⟩,
            ⟨Sym.sym a, {x.name}, ∅, St.n 1⟩] ∧
    ((singleton_dfa x alph).arcs_at (St.n 1)).bind (fun m => m.for_symbol a) =
      some [⟨Sym.sym a, ∅, {x.name}, St.n 1⟩,
            ⟨Sym.sym a, {x.name}, ∅, St.n 2⟩] ∧
    ((singleton_dfa x alph).arcs_at (St.n 2)).bind (fun m => m.for_symbol a) =
      some [⟨Sym.sym a, ∅, ∅, St.n 2⟩] ∧
    (less_dfa x y alph).start = St.n 0 ∧
    (∀ s, (less_dfa x y alph).final s = decide (s = St.n 0 ∨ s = St.n 1)) ∧
    ((less_dfa x y alph).arcs_at (St.n 0)).bind (fun m => m.for_symbol a) =
      some [⟨Sym.sym a, {x.name, y.name}, ∅, St.n 2⟩,
            ⟨Sym.sym a, ∅, {x.name, y.name}, St.n 0⟩,
            ⟨Sym.sym a, {x.name}, {y.name}, St.n 0⟩,
            ⟨Sym.sym a, {y.name}, {x.name}, St.n 1⟩] ∧
    ((less_dfa x y alph).arcs_at (St.n 1)).bind (fun m => m.for_symbol a) =
      some [⟨Sym.sym a, ∅, {x.name}, St.n 1⟩,
            ⟨Sym.sym a, {x.name}, ∅, St.n 2⟩] ∧
    ((less_dfa x y alph).arcs_at (St.n 2)).bind (fun m => m.for_symbol a) =
      some [⟨Sym.sym a, ∅, ∅, St.n 2⟩] := by
  refine ⟨rfl, fun s => rfl, ?_, ?_, ?_, rfl, fun s => rfl, ?_, ?_, ?_⟩ <;>
    simp [singleton_dfa, less_dfa, DictionaryArcs, ha]

/-- Witness for C8 at a one-symbol alphabet and the variables x and y. -/
theorem C8_singleton_less_tables_witness :
    ((singleton_dfa ⟨"x", 2⟩ ({0} : Finset Nat)).arcs_at (St.n 0)).bind
        (fun m => m.for_symbol 0) =
      some [⟨Sym.sym 0, ∅, {"x"}, St.n 0⟩, ⟨Sym.sym 0, {"x"}, ∅, St.n 1⟩] ∧
    ((less_dfa ⟨"x", 2⟩ ⟨"y", 2⟩ ({0} : Finset Nat)).arcs_at (St.n 0)).bind
        (fun m => m.for_symbol 0) =
      some [⟨Sym.sym 0, {"x", "y"}, ∅, St.n 2⟩,
            ⟨Sym.sym 0, ∅, {"x", "y"}, St.n 0⟩,
            ⟨Sym.sym 0, {"x"}, {"y"}, St.n 0⟩,
            ⟨Sym.sym 0, {"y"}, {"x"}, St.n 1⟩] :=
  ⟨(C8_singleton_less_tables {0} ⟨"x", 2⟩ ⟨"y", 2⟩ 0 (by decide)).2.2.1,
   (C8_singleton_less_tables {0} ⟨"x", 2⟩ ⟨"y", 2⟩ 0 (by decide)).2.2.2.2.2.2.2.1⟩

/-- Claim C7: for two arcs with disjoint labels, intersect_arcs returns
normally, producing an output arc exactly when the symbols are equal or one
is the wildcard rho and the merged positive and negative sets are disjoint;
the output arc carries the merged sets, the pair of nextstates, and the
concrete (or common) symbol; and an intersection state is final exactly when
both component states are final. -/
theorem C7_intersect_arcs_characterization (l r : Arc α)
    (hl : l.pos ∩ l.neg = ∅) (hr : r.pos ∩ r.neg = ∅) :
    (∃ res, intersect_arcs l r = some res ∧
      (res ≠ [] ↔
        ((l.symbol = r.symbol ∨ l.symbol = Sym.rho ∨ r.symbol = Sym.rho) ∧
          (l.pos ∪ r.pos) ∩ (l.neg ∪ r.neg) = ∅)) ∧
      (∀ arc ∈ res,
        arc.symbol = (if l.symbol = r.symbol ∨ r.symbol = Sym.rho
                      then l.symbol else r.symbol) ∧
        arc.pos = l.pos ∪ r.pos ∧ arc.neg = l.neg ∪ r.neg ∧
        arc.nextstate = St.pair l.nextstate r.nextstate) ∧
      res.length ≤ 1) ∧
    (∀ (dl dr : DFA α) (sl sr : St),
      (IntersectionDFA dl dr).final (St.pair sl sr) = (dl.final sl && dr.final sr)) := by
  constructor
  · by_cases hc : l.symbol = r.symbol ∨ r.symbol = Sym.rho
    · by_cases hd : (l.pos ∪ r.pos) ∩ (l.neg ∪ r.neg) = ∅
      · refine ⟨[⟨l.symbol, l.pos ∪ r.pos, l.neg ∪ r.neg,
            St.pair l.nextstate r.nextstate⟩],
          by simp [intersect_arcs, mergeSymbol, hl, hr, hc, hd], ?_, ?_, by simp⟩
        · simp only [ne_eq, List.cons_ne_self, not_false_eq_true, true_iff]
          exact ⟨by tauto, hd⟩
        · intro arc harc
          simp only [List.mem_singleton] at harc
          subst harc
          simp [hc]
      · refine ⟨[], by simp [intersect_arcs, mergeSymbol, hl, hr, hc, hd], ?_, ?_, by simp⟩
        · simp [hd]
        · intro arc harc
          simp at harc
    · by_cases he : l.symbol = Sym.rho
      · have hc2 : ¬ r.symbol = Sym.rho := by tauto
        have hc3 : ¬ Sym.rho = r.symbol := fun h => hc2 h.symm
        by_cases hd : (l.pos ∪ r.pos) ∩ (l.neg ∪ r.neg) = ∅
        · refine ⟨[⟨r.symbol, l.pos ∪ r.pos, l.neg ∪ r.neg,
              St.pair l.nextstate r.nextstate⟩],
            by simp [intersect_arcs, mergeSymbol, hl, hr, hc, hc2, hc3, he, hd], ?_, ?_, by simp⟩
          · simp only [ne_eq, List.cons_ne_self, not_false_eq_true, true_iff]
            exact ⟨by tauto, hd⟩
          · intro arc harc
            simp only [List.mem_singleton] at harc
            subst harc
            simp [hc]
        · refine ⟨[], by simp [intersect_arcs, mergeSymbol, hl, hr, hc, hc2, hc3, he, hd], ?_, ?_, by simp⟩
          · simp [hd]
          · intro arc harc
            simp at harc
      · refine ⟨[], by simp [intersect_arcs, mergeSymbol, hl, hr, hc, he], ?_, ?_, by simp⟩
        · have hn : ¬ (l.symbol = r.symbol ∨ l.symbol = Sym.rho ∨ r.symbol = Sym.rho) := by
            tauto
          simp [hn]
        · intro arc harc
          simp at harc
  · intro dl dr sl sr
    rfl

/-- Witness for C7 at two concrete arcs with disjoint labels. -/
theorem C7_intersect_arcs_characterization_witness :
    ∃ res, intersect_arcs (⟨Sym.sym 0, {"x"}, ∅, St.n 0⟩ : Arc Nat)
        ⟨Sym.sym 0, ∅, {"y"}, St.n 1⟩ = some res ∧
      (res ≠ [] ↔
        ((Sym.sym 0 = Sym.sym 0 ∨ (Sym.sym 0 : Sym Nat) = Sym.rho ∨
           (Sym.sym 0 : Sym Nat) = Sym.rho) ∧
          (({"x"} ∪ ∅ : Finset String)) ∩ (∅ ∪ {"y"}) = ∅)) ∧
      (∀ arc ∈ res,
        arc.symbol = (if (Sym.sym 0 : Sym Nat) = Sym.sym 0 ∨
                         (Sym.sym 0 : Sym Nat) = Sym.rho
                      then Sym.sym 0 else Sym.sym 0) ∧
        arc.pos = {"x"} ∪ ∅ ∧ arc.neg = ∅ ∪ {"y"} ∧
        arc.nextstate = St.pair (St.n 0) (St.n 1)) ∧
      res.length ≤ 1 :=
  (C7_intersect_arcs_characterization ⟨Sym.sym 0, {"x"}, ∅, St.n 0⟩
    ⟨Sym.sym 0, ∅, {"y"}, St.n 1⟩ (by decide) (by decide)).1

/-! Helper lemmas about lists, fallible iteration, subsets and the
determinization. -/

theorem mem_joinAll {xss : List (List (Arc α))} {x : Arc α} :
    x ∈ joinAll xss ↔ ∃ l ∈ xss, x ∈ l := by
  induction xss with
  | nil => simp [joinAll]
  | cons l ls ih =>
    show x ∈ l ++ joinAll ls ↔ _
    rw [List.mem_append, ih]
    constructor
    · rintro (h | ⟨l2, hl2, h⟩)
      · exact ⟨l, List.mem_cons_self l ls, h⟩
      · exact ⟨l2, List.mem_cons_of_mem l hl2, h⟩
    · rintro ⟨l2, hl2, h⟩
      rcases List.mem_cons.mp hl2 with rfl | hl2
      · exact Or.inl h
      · exact Or.inr ⟨l2, hl2, h⟩

theorem mapOpt_cons_eq_some {f : β → Option γ} {x : β} {xs : List β} {ys : List γ} :
    mapOpt f (x :: xs) = some ys ↔
      ∃ y ys2, f x = some y ∧ mapOpt f xs = some ys2 ∧ ys = y :: ys2 := by
  cases hfx : f x with
  | none => simp [mapOpt, hfx]
  | some y =>
    cases hmx : mapOpt f xs with
    | none => simp [mapOpt, hfx, hmx]
    | some ys2 =>
      simp only [mapOpt, hfx, hmx, Option.some.injEq]
      constructor
      · rintro rfl
        exact ⟨y, ys2, rfl, rfl, rfl⟩
      · rintro ⟨y2, ys3, h1, h2, rfl⟩
        rw [h1, h2]

theorem mapOpt_isSome {f : β → Option γ} (xs : List β)
    (h : ∀ x ∈ xs, ∃ y, f x = some y) : ∃ ys, mapOpt f xs = some ys := by
  induction xs with
  | nil => exact ⟨[], rfl⟩
  | cons x xs ih =>
    obtain ⟨y, hy⟩ := h x (List.mem_cons_self x xs)
    obtain ⟨ys, hys⟩ := ih (fun z hz => h z (List.mem_cons_of_mem x hz))
    exact ⟨y :: ys, mapOpt_cons_eq_some.mpr ⟨y, ys, hy, hys, rfl⟩⟩

theorem mapOpt_mem_of_mem {f : β → Option γ} {xs : List β} {ys : List γ}
    (h : mapOpt f xs = some ys) {y : γ} (hy : y ∈ ys) : ∃ x ∈ xs, f x = some y := by
  induction xs generalizing ys with
  | nil =>
    simp only [mapOpt, Option.some.injEq] at h
    subst h
    simp at hy
  | cons x xs ih =>
    obtain ⟨y2, ys2, hfx, hmx, rfl⟩ := mapOpt_cons_eq_some.mp h
    rcases List.mem_cons.mp hy with rfl | hy2
    · exact ⟨x, List.mem_cons_self x xs, hfx⟩
    · obtain ⟨x2, hx2, hfx2⟩ := ih hmx hy2
      exact ⟨x2, List.mem_cons_of_mem x hx2, hfx2⟩

theorem mapOpt_forall_mem {f : β → Option γ} {xs : List β} {ys : List γ}
    (h : mapOpt f xs = some ys) {x : β} (hx : x ∈ xs) : ∃ y ∈ ys, f x = some y := by
  induction xs generalizing ys with
  | nil => simp at hx
  | cons x2 xs ih =>
    obtain ⟨y2, ys2, hfx, hmx, rfl⟩ := mapOpt_cons_eq_some.mp h
    rcases List.mem_cons.mp hx with rfl | hx2
    · exact ⟨y2, List.mem_cons_self y2 ys2, hfx⟩
    · obtain ⟨y3, hy3, hfy3⟩ := ih hmx hx2
      exact ⟨y3, List.mem_cons_of_mem y2 hy3, hfy3⟩

theorem sdiff_inter_eq_empty_iff {V P A : Finset String} (hA : A ⊆ V) :
    (V \ P) ∩ A = ∅ ↔ A ⊆ P := by
  simp only [Finset.eq_empty_iff_forall_not_mem, Finset.mem_inter, Finset.mem_sdiff]
  constructor
  · intro h x hx
    by_contra hxP
    exact h x ⟨⟨hA hx, hxP⟩, hx⟩
  · rintro h x ⟨⟨_, hxP⟩, hxA⟩
    exact hxP (h hxA)

theorem inter_eq_empty_iff_subset_sdiff {V P A : Finset String} (hA : A ⊆ V) :
    P ∩ A = ∅ ↔ A ⊆ V \ P := by
  simp only [Finset.eq_empty_iff_forall_not_mem, Finset.mem_inter]
  constructor
  · intro h x hx
    exact Finset.mem_sdiff.mpr ⟨hA hx, fun hxP => h x ⟨hxP, hx⟩⟩
  · rintro h x ⟨hxP, hxA⟩
    exact (Finset.mem_sdiff.mp (h hxA)).2 hxP

theorem mem_subsetsOf {l : List String} {P : Finset String} :
    P ∈ subsetsOf l ↔ P ⊆ l.toFinset := by
  induction l generalizing P with
  | nil => simp [subsetsOf, Finset.subset_empty]
  | cons x xs ih =>
    simp only [subsetsOf, List.mem_append, List.mem_map, ih, List.toFinset_cons]
    constructor
    · rintro (h | ⟨Q, hQ, rfl⟩)
      · exact h.trans (Finset.subset_insert x _)
      · exact Finset.insert_subset_insert x hQ
    · intro hP
      by_cases hx : x ∈ P
      · right
        refine ⟨P.erase x, ?_, Finset.insert_erase hx⟩
        intro y hy
        obtain ⟨hyx, hyP⟩ := Finset.mem_erase.mp hy
        rcases Finset.mem_insert.mp (hP hyP) with h | h
        · exact absurd h hyx
        · exact h
      · left
        intro y hy
        rcases Finset.mem_insert.mp (hP hy) with h | h
        · subst h; exact absurd hy hx
        · exact h

theorem length_subsetsOf (l : List String) : (subsetsOf l).length = 2 ^ l.length := by
  induction l with
  | nil => rfl
  | cons x xs ih =>
    simp only [subsetsOf, List.length_append, List.length_map, ih, List.length_cons]
    rw [pow_succ]
    omega

theorem filter_eq_subsetsOf_length {l : List String} (hn : l.Nodup) {P : Finset String}
    (hP : P ⊆ l.toFinset) :
    ((subsetsOf l).filter (fun Q => Q = P)).length = 1 := by
  induction l generalizing P with
  | nil =>
    have hPe : P = ∅ := Finset.subset_empty.mp (by simpa using hP)
    subst hPe
    simp [subsetsOf]
  | cons x xs ih =>
    have hxs : x ∉ xs := (List.nodup_cons.mp hn).1
    have hnxs : xs.Nodup := (List.nodup_cons.mp hn).2
    simp only [subsetsOf, List.filter_append, List.length_append, List.filter_map,
      List.length_map]
    by_cases hx : x ∈ P
    · have h0 : (subsetsOf xs).filter (fun Q => Q = P) = [] := by
        rw [List.filter_eq_nil_iff]
        intro Q hQ
        simp only [decide_eq_true_eq]
        rintro rfl
        exact hxs (List.mem_toFinset.mp (mem_subsetsOf.mp hQ hx))
      have hcongr : (subsetsOf xs).filter ((fun Q => decide (Q = P)) ∘ insert x) =
          (subsetsOf xs).filter (fun Q => Q = P.erase x) := by
        apply List.filter_congr
        intro Q hQ
        have hxQ : x ∉ Q := fun hc =>
          hxs (List.mem_toFinset.mp (mem_subsetsOf.mp hQ hc))
        simp only [Function.comp_apply, decide_eq_decide]
        constructor
        · rintro rfl
          rw [Finset.erase_insert hxQ]
        · rintro rfl
          exact Finset.insert_erase hx
      rw [h0, hcongr, ih hnxs (fun y hy => by
        obtain ⟨hyx, hyP⟩ := Finset.mem_erase.mp hy
        rcases Finset.mem_insert.mp
          (by simpa using hP hyP : y ∈ insert x xs.toFinset) with h | h
        · exact absurd h hyx
        · exact h)]
      simp
    · have h0 : (subsetsOf xs).filter ((fun Q => decide (Q = P)) ∘ insert x) = [] := by
        rw [List.filter_eq_nil_iff]
        intro Q _
        simp only [Function.comp_apply, decide_eq_true_eq]
        rintro rfl
        exact hx (Finset.mem_insert_self x Q)
      have hPxs : P ⊆ xs.toFinset := by
        intro y hy
        rcases Finset.mem_insert.mp
          (by simpa using hP hy : y ∈ insert x xs.toFinset) with h | h
        · subst h; exact absurd hy hx
        · exact h
      rw [h0, ih hnxs hPxs]
      simp

theorem mem_arcVariables {arcs : List (Arc α)} {v : String} :
    v ∈ arcVariables arcs ↔ ∃ arc ∈ arcs, v ∈ arc.pos ∨ v ∈ arc.neg := by
  induction arcs with
  | nil => simp [arcVariables]
  | cons u us ih =>
    show v ∈ u.pos ∪ u.neg ∪ arcVariables us ↔ _
    simp only [Finset.mem_union, ih, List.mem_cons]
    constructor
    · rintro ((h | h) | ⟨w, hw, hv⟩)
      · exact ⟨u, Or.inl rfl, Or.inl h⟩
      · exact ⟨u, Or.inl rfl, Or.inr h⟩
      · exact ⟨w, Or.inr hw, hv⟩
    · rintro ⟨w, (rfl | hw), hv⟩
      · rcases hv with h | h
        · exact Or.inl (Or.inl h)
        · exact Or.inl (Or.inr h)
      · exact Or.inr ⟨w, hw, hv⟩

theorem pos_subset_arcVariables {arcs : List (Arc α)} {u : Arc α} (hu : u ∈ arcs) :
    u.pos ⊆ arcVariables arcs :=
  fun v hv => mem_arcVariables.mpr ⟨u, hu, Or.inl hv⟩

theorem neg_subset_arcVariables {arcs : List (Arc α)} {u : Arc α} (hu : u ∈ arcs) :
    u.neg ⊆ arcVariables arcs :=
  fun v hv => mem_arcVariables.mpr ⟨u, hu, Or.inr hv⟩

theorem mem_powersetList {V P : Finset String} : P ∈ powersetList V ↔ P ⊆ V := by
  rw [powersetList, mem_subsetsOf, toFinset_sortedList]

theorem length_powersetList (V : Finset String) :
    (powersetList V).length = 2 ^ V.card := by
  rw [powersetList, length_subsetsOf, length_sortedList]

theorem filter_powersetList_length {V P : Finset String} (hP : P ⊆ V) :
    ((powersetList V).filter (fun Q => Q = P)).length = 1 :=
  filter_eq_subsetsOf_length (nodup_sortedList V) (by rwa [toFinset_sortedList])

theorem DeterminizedArcs_for_symbol_eq {ms : List (SymbolToArcsMapping α)} {a : α}
    {arcss : List (List (Arc α))}
    (h : mapOpt (fun m => m.for_symbol a) ms = some arcss) :
    (DeterminizedArcs ms).for_symbol a = some (detArcsFor a arcss) := by
  show (mapOpt (fun m => m.for_symbol a) ms).map (detArcsFor a) = _
  rw [h]
  rfl

theorem length_filter_map_pos {V : Finset String} {g : Finset String → Arc α}
    (hg : ∀ Q, (g Q).pos = Q) {P : Finset String} (hP : P ⊆ V) :
    (((powersetList V).map g).filter (fun arc => arc.pos = P)).length = 1 := by
  rw [List.filter_map, List.length_map]
  have hc : ∀ Q ∈ powersetList V,
      ((fun arc : Arc α => decide (arc.pos = P)) ∘ g) Q = decide (Q = P) := by
    intro Q _
    simp [Function.comp, hg]
  rw [List.filter_congr hc, filter_powersetList_length hP]

/-- Claim C3: at a macro-state whose members all have defined arc lookups,
the determinized arc index yields, for a symbol, one arc per subset P of the
variable set V occurring on the fired underlying arcs (2 to the power of the
cardinality of V arcs in total), carrying symbol, pos = P, neg = V minus P,
and as nextstate the set of nextstates of the underlying arcs with pos
inside P and neg inside the complement; the determinized start state is the
singleton of the underlying start, and a macro-state is final iff some
member is final. -/
theorem C3_determinized_arcs (d : DFA α) (xs : List St) (a : α)
    (idxs : List (SymbolToArcsMapping α)) (arcss : List (List (Arc α)))
    (h1 : mapOpt d.arcs_at xs = some idxs)
    (h2 : mapOpt (fun m => m.for_symbol a) idxs = some arcss) :
    (DeterminizedDFA d).arcs_at (St.set xs) = some (DeterminizedArcs idxs) ∧
    (∃ res, (DeterminizedArcs idxs).for_symbol a = some res ∧
      res.length = 2 ^ (arcVariables (joinAll arcss)).card ∧
      (∀ P, P ⊆ arcVariables (joinAll arcss) →
        (res.filter fun arc => arc.pos = P).length = 1) ∧
      (∀ arc ∈ res, arc.symbol = Sym.sym a ∧
        arc.pos ⊆ arcVariables (joinAll arcss) ∧
        arc.neg = arcVariables (joinAll arcss) \ arc.pos ∧
        ∃ lst, arc.nextstate = St.set lst ∧
          ∀ s, s ∈ lst ↔ ∃ u ∈ joinAll arcss,
            u.pos ⊆ arc.pos ∧ u.neg ⊆ arc.neg ∧ u.nextstate = s)) ∧
    (DeterminizedDFA d).start = St.set [d.start] ∧
    ∀ ys, (DeterminizedDFA d).final (St.set ys) = ys.any d.final := by
  refine ⟨?_, ?_, rfl, fun ys => rfl⟩
  · show (mapOpt d.arcs_at xs).map DeterminizedArcs = _
    rw [h1]
    rfl
  · refine ⟨_, DeterminizedArcs_for_symbol_eq h2, ?_, ?_, ?_⟩
    · rw [detArcsFor, List.length_map, length_powersetList]
    · intro P hP
      rw [detArcsFor]
      exact length_filter_map_pos (fun Q => rfl) hP
    · intro arc harc
      rw [detArcsFor] at harc
      obtain ⟨P, hPmem, rfl⟩ := List.mem_map.mp harc
      have hP : P ⊆ arcVariables (joinAll arcss) := mem_powersetList.mp hPmem
      refine ⟨rfl, hP, rfl, _, rfl, ?_⟩
      intro s
      rw [mem_canon, List.mem_filterMap]
      constructor
      · rintro ⟨u, hu, hif⟩
        by_cases hc : P ∩ u.neg = ∅ ∧ (arcVariables (joinAll arcss) \ P) ∩ u.pos = ∅
        · rw [if_pos hc] at hif
          injection hif with hif
          exact ⟨u, hu,
            (sdiff_inter_eq_empty_iff (pos_subset_arcVariables hu)).mp hc.2,
            (inter_eq_empty_iff_subset_sdiff (neg_subset_arcVariables hu)).mp hc.1,
            hif⟩
        · rw [if_neg hc] at hif
          exact absurd hif (by simp)
      · rintro ⟨u, hu, hupos, huneg, rfl⟩
        refine ⟨u, hu, ?_⟩
        rw [if_pos ⟨(inter_eq_empty_iff_subset_sdiff
            (neg_subset_arcVariables hu)).mpr huneg,
          (sdiff_inter_eq_empty_iff (pos_subset_arcVariables hu)).mpr hupos⟩]

/-- Witness for C3: the determinization of the universal automaton over a
one-symbol alphabet, at the singleton macro-state of its start state. -/
theorem C3_determinized_arcs_witness :
    ∃ res, (DeterminizedArcs [DictionaryArcs ({0} : Finset Nat)
        (fun a => [⟨Sym.sym a, ∅, ∅, St.n 0⟩])]).for_symbol 0 = some res ∧
      res.length = 2 ^ (arcVariables (joinAll
        [[(⟨Sym.sym 0, ∅, ∅, St.n 0⟩ : Arc Nat)]])).card ∧
      (∀ P, P ⊆ arcVariables (joinAll [[(⟨Sym.sym 0, ∅, ∅, St.n 0⟩ : Arc Nat)]]) →
        (res.filter fun arc => arc.pos = P).length = 1) ∧
      (∀ arc ∈ res, arc.symbol = Sym.sym 0 ∧
        arc.pos ⊆ arcVariables (joinAll [[(⟨Sym.sym 0, ∅, ∅, St.n 0⟩ : Arc Nat)]]) ∧
        arc.neg = arcVariables (joinAll [[(⟨Sym.sym 0, ∅, ∅, St.n 0⟩ : Arc Nat)]]) \ arc.pos ∧
        ∃ lst, arc.nextstate = St.set lst ∧
          ∀ s, s ∈ lst ↔ ∃ u ∈ joinAll [[(⟨Sym.sym 0, ∅, ∅, St.n 0⟩ : Arc Nat)]],
            u.pos ⊆ arc.pos ∧ u.neg ⊆ arc.neg ∧ u.nextstate = s) :=
  (C3_determinized_arcs (universal_dfa {0}) [St.n 0] 0
    [DictionaryArcs {0} (fun a => [⟨Sym.sym a, ∅, ∅, St.n 0⟩])]
    [[⟨Sym.sym 0, ∅, ∅, St.n 0⟩]] (by rfl) (by rfl)).2.1

/-! Soundness helpers for arc intersection and projection, shared by several
claims. -/

theorem mergeSymbol_eq_some {ls rs s : Sym α} (h : mergeSymbol ls rs = some s) :
    s = ls ∨ s = rs := by
  unfold mergeSymbol at h
  by_cases hc : ls = rs ∨ rs = Sym.rho
  · rw [if_pos hc] at h
    injection h with h
    exact Or.inl h.symm
  · rw [if_neg hc] at h
    by_cases he : ls = Sym.rho
    · rw [if_pos he] at h
      injection h with h
      exact Or.inr h.symm
    · rw [if_neg he] at h
      exact absurd h (by simp)

theorem intersect_arcs_isSome {l r : Arc α} (hl : l.pos ∩ l.neg = ∅)
    (hr : r.pos ∩ r.neg = ∅) : ∃ res, intersect_arcs l r = some res := by
  unfold intersect_arcs
  rw [if_neg (by simpa using hl), if_neg (by simpa using hr)]
  cases hms : mergeSymbol l.symbol r.symbol with
  | none => exact ⟨[], rfl⟩
  | some s =>
    dsimp only
    by_cases hd : (l.pos ∪ r.pos) ∩ (l.neg ∪ r.neg) = ∅
    · exact ⟨_, by rw [if_pos hd]⟩
    · exact ⟨_, by rw [if_neg hd]⟩

theorem intersect_arcs_mem {l r arc : Arc α} {res : List (Arc α)}
    (h : intersect_arcs l r = some res) (ha : arc ∈ res) :
    arc.pos = l.pos ∪ r.pos ∧ arc.neg = l.neg ∪ r.neg ∧
    arc.pos ∩ arc.neg = ∅ ∧
    arc.nextstate = St.pair l.nextstate r.nextstate ∧
    (arc.symbol = l.symbol ∨ arc.symbol = r.symbol) := by
  unfold intersect_arcs at h
  by_cases hl : l.pos ∩ l.neg = ∅
  · rw [if_neg (by simpa using hl)] at h
    by_cases hr : r.pos ∩ r.neg = ∅
    · rw [if_neg (by simpa using hr)] at h
      cases hms : mergeSymbol l.symbol r.symbol with
      | none =>
        rw [hms] at h
        dsimp only at h
        injection h with h
        subst h
        simp at ha
      | some s =>
        rw [hms] at h
        dsimp only at h
        by_cases hd : (l.pos ∪ r.pos) ∩ (l.neg ∪ r.neg) = ∅
        · rw [if_pos hd] at h
          injection h with h
          subst h
          simp only [List.mem_singleton] at ha
          subst ha
          refine ⟨rfl, rfl, hd, rfl, ?_⟩
          exact mergeSymbol_eq_some hms
        · rw [if_neg hd] at h
          injection h with h
          subst h
          simp at ha
    · rw [if_pos (by simpa using hr)] at h
      exact absurd h (by simp)
  · rw [if_pos (by simpa using hl)] at h
    exact absurd h (by simp)

theorem projectArc_sound {v : String} {arc : Arc α} (hd : arc.pos ∩ arc.neg = ∅) :
    ∃ ar2, projectArc v arc = some ar2 ∧
      ar2.symbol = arc.symbol ∧ ar2.nextstate = arc.nextstate ∧
      ar2.pos ∩ ar2.neg = ∅ ∧
      ar2.pos ∪ ar2.neg = (arc.pos ∪ arc.neg).erase v := by
  have hdisj : ∀ w, w ∈ arc.pos → w ∈ arc.neg → False := by
    intro w h1 h2
    have : w ∈ arc.pos ∩ arc.neg := Finset.mem_inter.mpr ⟨h1, h2⟩
    rw [hd] at this
    exact absurd this (Finset.not_mem_empty w)
  unfold projectArc
  by_cases hp : v ∈ arc.pos
  · have hn : v ∉ arc.neg := fun hc => hdisj v hp hc
    rw [if_pos hp, if_neg hn]
    refine ⟨_, rfl, rfl, rfl, ?_, ?_⟩
    · rw [Finset.eq_empty_iff_forall_not_mem]
      intro w hw
      obtain ⟨h1, h2⟩ := Finset.mem_inter.mp hw
      exact hdisj w (Finset.mem_of_mem_erase h1) h2
    · rw [Finset.erase_union_distrib, Finset.erase_eq_of_not_mem hn]
  · rw [if_neg hp]
    by_cases hn : v ∈ arc.neg
    · rw [if_pos hn]
      refine ⟨_, rfl, rfl, rfl, ?_, ?_⟩
      · rw [Finset.eq_empty_iff_forall_not_mem]
        intro w hw
        obtain ⟨h1, h2⟩ := Finset.mem_inter.mp hw
        exact hdisj w h1 (Finset.mem_of_mem_erase h2)
      · rw [Finset.erase_union_distrib, Finset.erase_eq_of_not_mem hp]
    · rw [if_neg hn]
      refine ⟨_, rfl, rfl, rfl, hd, ?_⟩
      rw [Finset.erase_eq_of_not_mem (by
        intro hc
        rcases Finset.mem_union.mp hc with h | h
        · exact hp h
        · exact hn h)]

theorem detArcsFor_disjoint {a : α} {arcss : List (List (Arc α))} {arc : Arc α}
    (ha : arc ∈ detArcsFor a arcss) : arc.pos ∩ arc.neg = ∅ := by
  obtain ⟨P, _, rfl⟩ := List.mem_map.mp ha
  exact Finset.inter_sdiff_self P (arcVariables (joinAll arcss))

/-- Acceptor following the words of claim C4 (a statement-level definition
written from the specification sentence, to be compared with the code's
accepts): at each step only the arcs applicable to the empty positional
labelling, i.e. those with empty pos, contribute successor states. -/
def runEmptyLabelling (d : DFA α) : St → List α → Option St
  | s, [] => some s
  | s, a :: w =>
      match d.arcs_at s with
      | none => none
      | some m =>
          match m.for_symbol a with
          | none => none
          | some arcs =>
              match ((arcs.filter (fun arc => arc.pos = ∅)).map
                  (fun arc => arc.nextstate)).dedup with
              | [x] => runEmptyLabelling d x w
              | _ => none

/-- Acceptance relation claimed by C4: walk with only the empty-labelling
applicable arcs, require exactly one successor per step, accept iff the
reached state is final. -/
def acceptsEmptyLabelling (d : DFA α) (w : List α) : Option Bool :=
  (runEmptyLabelling d d.start w).map d.final

/-- Acceptor following the amended claim C4: at each step the set of
nextstates is collected over all arcs returned by for_symbol, without any
applicability filtering; exactly one distinct successor is required per
step, and the word is accepted iff the reached state is final. -/
def runAllArcs (d : DFA α) : St → List α → Option St
  | s, [] => some s
  | s, a :: w =>
      match d.arcs_at s with
      | none => none
      | some m =>
          match m.for_symbol a with
          | none => none
          | some arcs =>
              match (arcs.map (fun arc => arc.nextstate)).dedup with
              | [x] => runAllArcs d x w
              | _ => none

/-- Acceptance relation of the amended claim C4. -/
def acceptsAllArcs (d : DFA α) (w : List α) : Option Bool :=
  (runAllArcs d d.start w).map d.final

/-- Counterexample to claim C4 as stated: on the Singleton base automaton
over a one-symbol alphabet, the claimed acceptor (which keeps only arcs
with empty pos) rejects the one-letter word, while the implemented accepts
aborts, because it collects the nextstates of all arcs, finds two distinct
successors, and the single-successor assertion fails. -/
theorem C4_counterexample_filtering :
    accepts (singleton_dfa ⟨"x", 1⟩ ({0} : Finset Nat)) [0] = none ∧
    acceptsEmptyLabelling (singleton_dfa ⟨"x", 1⟩ ({0} : Finset Nat)) [0] =
      some false := by decide

/-- Claim C4 amended: accepts starts at the start state and, at each step,
collects the set of arc nextstates over all arcs of
arcs_at(state).for_symbol(σ) with no applicability filtering, requires
exactly one distinct successor per step, and returns true iff the state
reached after the last symbol is final. -/
theorem C4_accepts_all_arcs (d : DFA α) (w : List α) :
    accepts d w = acceptsAllArcs d w := by
  have key : ∀ (w : List α) (s : St),
      List.foldlM (transition d) s w = runAllArcs d s w := by
    intro w
    induction w with
    | nil => intro s; rfl
    | cons a w ih =>
      intro s
      rw [List.foldlM_cons]
      show transition d s a >>= (fun s2 => List.foldlM (transition d) s2 w) = _
      unfold transition runAllArcs
      cases d.arcs_at s with
      | none => rfl
      | some m =>
        dsimp only
        cases m.for_symbol a with
        | none => rfl
        | some arcs =>
          dsimp only
          cases hdp : (arcs.map (fun arc => arc.nextstate)).dedup with
          | nil => rfl
          | cons x xs =>
            cases xs with
            | nil => simpa using ih x
            | cons y ys => rfl
  unfold accepts acceptsAllArcs
  rw [key]

/-- Counterexample to claim C5 as stated: a DFA built like the default
builder output, with a start state carrying no arcs.  On a one-letter word
accepts aborts (KeyError in for_symbol, modelled as none) instead of
returning false. -/
theorem C5_counterexample_no_successor :
    accepts (⟨St.n 0, fun s => decide (s = St.n 0),
        fun s => if s = St.n 0 then some (DictionaryArcs (∅ : Finset Nat)
          (fun _ => [])) else none⟩ : DFA Nat) [0] = none := by decide

/-- Claim C5 amended: when the current state has no applicable successor arc
for the current symbol — the arc lookup raises (none) or returns an empty
arc list — the membership test aborts (the single-successor assertion
fails, modelled as none) rather than returning false; dead-state behaviour
is instead provided by the explicit sink states of the base constructors
and by the empty macro-state of the determinization. -/
theorem C5_no_successor_aborts :
    (∀ (d : DFA α) (s : St) (a : α) (m : SymbolToArcsMapping α),
        d.arcs_at s = some m → m.for_symbol a = some [] →
        transition d s a = none) ∧
    (∀ (d : DFA α) (s : St) (a : α) (m : SymbolToArcsMapping α),
        d.arcs_at s = some m → m.for_symbol a = none →
        transition d s a = none) ∧
    (∀ (d : DFA α) (s : St) (a : α), d.arcs_at s = none →
        transition d s a = none) ∧
    (∀ (d : DFA α) (a : α) (w : List α), transition d d.start a = none →
        accepts d (a :: w) = none) := by
  refine ⟨?_, ?_, ?_, ?_⟩
  · intro d s a m h1 h2
    unfold transition
    rw [h1]
    dsimp only
    rw [h2]
    rfl
  · intro d s a m h1 h2
    unfold transition
    rw [h1]
    dsimp only
    rw [h2]
  · intro d s a h1
    unfold transition
    rw [h1]
  · intro d a w h
    unfold accepts
    rw [List.foldlM_cons]
    show (transition d d.start a >>= fun s2 => List.foldlM (transition d) s2 w).map d.final = none
    rw [h]
    rfl

/-- Witness for the amended claim C5 at the arcless DFA of the
counterexample. -/
theorem C5_no_successor_aborts_witness :
    accepts (⟨St.n 1, fun s => decide (s = St.n 1),
        fun s => if s = St.n 1 then some (DictionaryArcs (∅ : Finset Nat)
          (fun _ => [])) else none⟩ : DFA Nat) [0, 0] = none :=
  (C5_no_successor_aborts).2.2.2 _ 0 [0] ((C5_no_successor_aborts).2.1 _ (St.n 1) 0
    (DictionaryArcs ∅ (fun _ => [])) (by rfl) (by rfl))

/-- Counterexample to claim C9 as stated: the base constructor for
Less(X, Y) does not special-case equal variable names; less_dfa on the same
variable twice emits arcs whose pos and neg both contain that name. -/
theorem C9_counterexample_less_same_variable :
    ((less_dfa ⟨"x", 1⟩ ⟨"x", 1⟩ ({0} : Finset Nat)).arcs_at (St.n 0)).bind
        (fun m => m.for_symbol 0) =
      some [⟨Sym.sym 0, {"x"}, ∅, St.n 2⟩,
            ⟨Sym.sym 0, ∅, {"x"}, St.n 0⟩,
            ⟨Sym.sym 0, {"x"}, {"x"}, St.n 0⟩,
            ⟨Sym.sym 0, {"x"}, {"x"}, St.n 1⟩] ∧
    ¬ (({"x"} : Finset String) ∩ ({"x"} : Finset String) = ∅) := by decide

/-- Claim C10: in a determinized DFA the empty macro-state is an explicit
non-final sink: for every symbol whatsoever its arc index yields exactly one
arc, with empty pos and neg, looping back to the empty macro-state; it is
not final; and a membership run that reaches it stays there for the rest of
the word. -/
theorem C10_empty_macro_state_sink (d : DFA α) (a : α) :
    ((DeterminizedDFA d).arcs_at (St.set [])).bind (fun m => m.for_symbol a) =
      some [⟨Sym.sym a, ∅, ∅, St.set []⟩] ∧
    (DeterminizedDFA d).final (St.set []) = false ∧
    ∀ w : List α, List.foldlM (transition (DeterminizedDFA d)) (St.set []) w =
      some (St.set []) := by
  refine ⟨rfl, rfl, ?_⟩
  intro w
  induction w with
  | nil => rfl
  | cons b w ih =>
    have ht : transition (DeterminizedDFA d) (St.set []) b = some (St.set []) := rfl
    rw [List.foldlM_cons, ht]
    simpa using ih

/-! Characterization lemmas for the base automata: possible states, and the
shape of every produced arc.  These feed the well-formedness invariant of
the translation and the disjointness claim. -/

theorem DictionaryArcs_for_symbol (alph : Finset α) (f : α → List (Arc α)) (a : α) :
    (DictionaryArcs alph f).for_symbol a =
      if a ∈ alph then some (f a) else none := rfl

theorem universal_dfa_arcs {alph : Finset α} {s : St} {m : SymbolToArcsMapping α}
    {a : α} {arcs : List (Arc α)} {arc : Arc α}
    (h1 : (universal_dfa alph).arcs_at s = some m)
    (h2 : m.for_symbol a = some arcs) (harc : arc ∈ arcs) :
    a ∈ alph ∧ arc.symbol = Sym.sym a ∧ arc.pos = ∅ ∧ arc.neg = ∅ ∧
    arc.nextstate = St.n 0 := by
  unfold universal_dfa at h1
  dsimp only at h1
  split at h1
  · injection h1 with h1
    subst h1
    rw [DictionaryArcs_for_symbol] at h2
    split at h2
    · injection h2 with h2
      subst h2
      simp only [List.mem_singleton] at harc
      subst harc
      exact ⟨by assumption, rfl, rfl, rfl, rfl⟩
    · exact absurd h2 (by simp)
  · exact absurd h1 (by simp)

theorem universal_dfa_start (alph : Finset α) :
    (universal_dfa alph).start = St.n 0 := rfl

theorem symbol_dfa_arcs {symb : α} {x : Variable} {alph : Finset α} {d : DFA α}
    {s : St} {m : SymbolToArcsMapping α} {a : α} {arcs : List (Arc α)} {arc : Arc α}
    (hd : symbol_dfa symb x alph = some d)
    (h1 : d.arcs_at s = some m)
    (h2 : m.for_symbol a = some arcs) (harc : arc ∈ arcs) :
    a ∈ alph ∧ arc.symbol = Sym.sym a ∧ arc.pos ∪ arc.neg ⊆ {x.name} ∧
    arc.pos ∩ arc.neg = ∅ ∧
    (arc.nextstate = St.n 0 ∨ arc.nextstate = St.n 1) := by
  unfold symbol_dfa at hd
  split at hd
  · injection hd with hd
    subst hd
    dsimp only at h1
    split at h1
    · injection h1 with h1
      subst h1
      rw [DictionaryArcs_for_symbol] at h2
      split at h2
      · injection h2 with h2
        subst h2
        simp only [List.mem_cons, List.not_mem_nil, or_false] at harc
        rcases harc with rfl | rfl
        · refine ⟨by assumption, rfl, by simp, by simp, Or.inl rfl⟩
        · refine ⟨by assumption, rfl, by simp, by simp, ?_⟩
          split
          · exact Or.inl rfl
          · exact Or.inr rfl
      · exact absurd h2 (by simp)
    · split at h1
      · injection h1 with h1
        subst h1
        rw [DictionaryArcs_for_symbol] at h2
        split at h2
        · injection h2 with h2
          subst h2
          simp only [List.mem_singleton] at harc
          subst harc
          exact ⟨by assumption, rfl, by simp, by simp, Or.inr rfl⟩
        · exact absurd h2 (by simp)
      · exact absurd h1 (by simp)
  · exact absurd hd (by simp)

theorem equal_dfa_arcs {x y : Variable} {alph : Finset α}
    {s : St} {m : SymbolToArcsMapping α} {a : α} {arcs : List (Arc α)} {arc : Arc α}
    (h1 : (equal_dfa x y alph).arcs_at s = some m)
    (h2 : m.for_symbol a = some arcs) (harc : arc ∈ arcs) :
    a ∈ alph ∧ arc.symbol = Sym.sym a ∧ arc.pos ∪ arc.neg ⊆ {x.name, y.name} ∧
    arc.pos ∩ arc.neg = ∅ ∧
    (arc.nextstate = St.n 0 ∨ arc.nextstate = St.n 1) := by
  unfold equal_dfa at h1
  split at h1
  · obtain ⟨ha, hsym, hpos, hneg, hnext⟩ := universal_dfa_arcs h1 h2 harc
    exact ⟨ha, hsym, by simp [hpos, hneg], by simp [hpos, hneg], Or.inl hnext⟩
  · rename_i hne
    dsimp only at h1
    split at h1
    · injection h1 with h1
      subst h1
      rw [DictionaryArcs_for_symbol] at h2
      split at h2
      · injection h2 with h2
        subst h2
        simp only [List.mem_cons, List.not_mem_nil, or_false] at harc
        have hxy : ({x.name} : Finset String) ∩ {y.name} = ∅ :=
          Finset.singleton_inter_of_not_mem (by simpa using hne)
        have hyx : ({y.name} : Finset String) ∩ {x.name} = ∅ :=
          Finset.singleton_inter_of_not_mem (by
            simpa using fun hc => hne hc.symm)
        rcases harc with rfl | rfl | rfl | rfl
        · exact ⟨by assumption, rfl, by simp, by simp, Or.inl rfl⟩
        · refine ⟨by assumption, rfl, by simp, by simp, Or.inl rfl⟩
        · refine ⟨by assumption, rfl, ?_, hxy, Or.inr rfl⟩
          exact Finset.union_subset (by simp) (by simp)
        · refine ⟨by assumption, rfl, ?_, hyx, Or.inr rfl⟩
          exact Finset.union_subset (by simp) (by simp)
      · exact absurd h2 (by simp)
    · split at h1
      · injection h1 with h1
        subst h1
        rw [DictionaryArcs_for_symbol] at h2
        split at h2
        · injection h2 with h2
          subst h2
          simp only [List.mem_singleton] at harc
          subst harc
          exact ⟨by assumption, rfl, by simp, by simp, Or.inr rfl⟩
        · exact absurd h2 (by simp)
      · exact absurd h1 (by simp)

theorem contained_in_dfa_arcs {x y : Variable} {alph : Finset α}
    {s : St} {m : SymbolToArcsMapping α} {a : α} {arcs : List (Arc α)} {arc : Arc α}
    (h1 : (contained_in_dfa x y alph).arcs_at s = some m)
    (h2 : m.for_symbol a = some arcs) (harc : arc ∈ arcs) :
    a ∈ alph ∧ arc.symbol = Sym.sym a ∧ arc.pos ∪ arc.neg ⊆ {x.name, y.name} ∧
    arc.pos ∩ arc.neg = ∅ ∧
    (arc.nextstate = St.n 0 ∨ arc.nextstate = St.n 1) := by
  unfold contained_in_dfa at h1
  split at h1
  · obtain ⟨ha, hsym, hpos, hneg, hnext⟩ := universal_dfa_arcs h1 h2 harc
    exact ⟨ha, hsym, by simp [hpos, hneg], by simp [hpos, hneg], Or.inl hnext⟩
  · rename_i hne
    dsimp only at h1
    split at h1
    · injection h1 with h1
      subst h1
      rw [DictionaryArcs_for_symbol] at h2
      split at h2
      · injection h2 with h2
        subst h2
        simp only [List.mem_cons, List.not_mem_nil, or_false] at harc
        have hxy : ({x.name} : Finset String) ∩ {y.name} = ∅ :=
          Finset.singleton_inter_of_not_mem (by simpa using hne)
        rcases harc with rfl | rfl | rfl
        · exact ⟨by assumption, rfl, by simp, by simp, Or.inl rfl⟩
        · refine ⟨by assumption, rfl, ?_, by simp, Or.inl rfl⟩
          exact Finset.union_subset (by simp) (by simp)
        · refine ⟨by assumption, rfl, ?_, hxy, Or.inr rfl⟩
          exact Finset.union_subset (by simp) (by simp)
      · exact absurd h2 (by simp)
    · split at h1
      · injection h1 with h1
        subst h1
        rw [DictionaryArcs_for_symbol] at h2
        split at h2
        · injection h2 with h2
          subst h2
          simp only [List.mem_singleton] at harc
          subst harc
          exact ⟨by assumption, rfl, by simp, by simp, Or.inr rfl⟩
        · exact absurd h2 (by simp)
      · exact absurd h1 (by simp)

theorem singleton_dfa_arcs {x : Variable} {alph : Finset α}
    {s : St} {m : SymbolToArcsMapping α} {a : α} {arcs : List (Arc α)} {arc : Arc α}
    (h1 : (singleton_dfa x alph).arcs_at s = some m)
    (h2 : m.for_symbol a = some arcs) (harc : arc ∈ arcs) :
    a ∈ alph ∧ arc.symbol = Sym.sym a ∧ arc.pos ∪ arc.neg ⊆ {x.name} ∧
    arc.pos ∩ arc.neg = ∅ ∧
    (arc.nextstate = St.n 0 ∨ arc.nextstate = St.n 1 ∨ arc.nextstate = St.n 2) := by
  unfold singleton_dfa at h1
  dsimp only at h1
  split at h1
  · injection h1 with h1
    subst h1
    rw [DictionaryArcs_for_symbol] at h2
    split at h2
    · injection h2 with h2
      subst h2
      simp only [List.mem_cons, List.not_mem_nil, or_false] at harc
      rcases harc with rfl | rfl
      · exact ⟨by assumption, rfl, by simp, by simp, Or.inl rfl⟩
      · exact ⟨by assumption, rfl, by simp, by simp, Or.inr (Or.inl rfl)⟩
    · exact absurd h2 (by simp)
  · split at h1
    · injection h1 with h1
      subst h1
      rw [DictionaryArcs_for_symbol] at h2
      split at h2
      · injection h2 with h2
        subst h2
        simp only [List.mem_cons, List.not_mem_nil, or_false] at harc
        rcases harc with rfl | rfl
        · exact ⟨by assumption, rfl, by simp, by simp, Or.inr (Or.inl rfl)⟩
        · exact ⟨by assumption, rfl, by simp, by simp, Or.inr (Or.inr rfl)⟩
      · exact absurd h2 (by simp)
    · split at h1
      · injection h1 with h1
        subst h1
        rw [DictionaryArcs_for_symbol] at h2
        split at h2
        · injection h2 with h2
          subst h2
          simp only [List.mem_singleton] at harc
          subst harc
          exact ⟨by assumption, rfl, by simp, by simp, Or.inr (Or.inr rfl)⟩
        · exact absurd h2 (by simp)
      · exact absurd h1 (by simp)

theorem less_dfa_arcs {x y : Variable} {alph : Finset α}
    {s : St} {m : SymbolToArcsMapping α} {a : α} {arcs : List (Arc α)} {arc : Arc α}
    (h1 : (less_dfa x y alph).arcs_at s = some m)
    (h2 : m.for_symbol a = some arcs) (harc : arc ∈ arcs) :
    a ∈ alph ∧ arc.symbol = Sym.sym a ∧ arc.pos ∪ arc.neg ⊆ {x.name, y.name} ∧
    (x.name ≠ y.name → arc.pos ∩ arc.neg = ∅) ∧
    (arc.nextstate = St.n 0 ∨ arc.nextstate = St.n 1 ∨ arc.nextstate = St.n 2) := by
  unfold less_dfa at h1
  dsimp only at h1
  split at h1
  · injection h1 with h1
    subst h1
    rw [DictionaryArcs_for_symbol] at h2
    split at h2
    · injection h2 with h2
      subst h2
      simp only [List.mem_cons, List.not_mem_nil, or_false] at harc
      rcases harc with rfl | rfl | rfl | rfl
      · exact ⟨by assumption, rfl, by simp, fun _ => by simp, Or.inr (Or.inr rfl)⟩
      · exact ⟨by assumption, rfl, by simp, fun _ => by simp, Or.inl rfl⟩
      · refine ⟨by assumption, rfl, ?_, fun hne => ?_, Or.inl rfl⟩
        · exact Finset.union_subset (by simp) (by simp)
        · exact Finset.singleton_inter_of_not_mem (by simpa using hne)
      · refine ⟨by assumption, rfl, ?_, fun hne => ?_, Or.inr (Or.inl rfl)⟩
        · exact Finset.union_subset (by simp) (by simp)
        · exact Finset.singleton_inter_of_not_mem
            (by simpa using fun hc => hne hc.symm)
    · exact absurd h2 (by simp)
  · split at h1
    · injection h1 with h1
      subst h1
      rw [DictionaryArcs_for_symbol] at h2
      split at h2
      · injection h2 with h2
        subst h2
        simp only [List.mem_cons, List.not_mem_nil, or_false] at harc
        rcases harc with rfl | rfl
        · exact ⟨by assumption, rfl, by simp, fun _ => by simp, Or.inr (Or.inl rfl)⟩
        · exact ⟨by assumption, rfl, by simp, fun _ => by simp, Or.inr (Or.inr rfl)⟩
      · exact absurd h2 (by simp)
    · split at h1
      · injection h1 with h1
        subst h1
        rw [DictionaryArcs_for_symbol] at h2
        split at h2
        · injection h2 with h2
          subst h2
          simp only [List.mem_singleton] at harc
          subst harc
          exact ⟨by assumption, rfl, by simp, fun _ => by simp,
            Or.inr (Or.inr rfl)⟩
        · exact absurd h2 (by simp)
      · exact absurd h1 (by simp)

/-! Reachability and a well-formedness invariant of translated automata:
at every reachable state, arc lookup succeeds for every alphabet symbol, and
each produced arc carries the queried symbol and disjoint labels drawn from
a free-variable budget. -/

/-- States reachable from the start along arcs fired by alphabet symbols. -/
inductive Reach (d : DFA α) (alph : Finset α) : St → Prop where
  | start : Reach d alph d.start
  | step {s : St} {a : α} {m : SymbolToArcsMapping α} {arcs : List (Arc α)}
      {arc : Arc α} :
      Reach d alph s → a ∈ alph → d.arcs_at s = some m →
      m.for_symbol a = some arcs → arc ∈ arcs → Reach d alph arc.nextstate

theorem Reach.invariant {d : DFA α} {alph : Finset α} (P : St → Prop)
    (hstart : P d.start)
    (hstep : ∀ (s : St) (a : α) (m : SymbolToArcsMapping α)
      (arcs : List (Arc α)) (arc : Arc α),
      P s → a ∈ alph → d.arcs_at s = some m → m.for_symbol a = some arcs →
      arc ∈ arcs → P arc.nextstate) :
    ∀ s, Reach d alph s → P s := by
  intro s h
  induction h with
  | start => exact hstart
  | step hr ha h1 h2 harc ih => exact hstep _ _ _ _ _ ih ha h1 h2 harc

/-- Well-formedness of one arc produced for the query symbol a, within the
free-variable budget F. -/
def GoodArc (F : Finset String) (a : α) (arc : Arc α) : Prop :=
  arc.symbol = Sym.sym a ∧ arc.pos ∩ arc.neg = ∅ ∧ arc.pos ∪ arc.neg ⊆ F

/-- Well-formedness of an automaton: every reachable state has, for every
alphabet symbol, a successful arc lookup yielding only good arcs. -/
def WFD (d : DFA α) (F : Finset String) (alph : Finset α) : Prop :=
  ∀ s, Reach d alph s → ∀ a ∈ alph, ∃ m arcs,
    d.arcs_at s = some m ∧ m.for_symbol a = some arcs ∧
    ∀ arc ∈ arcs, GoodArc F a arc

theorem WFD_mono {d : DFA α} {F F2 : Finset String} {alph : Finset α}
    (hF : F ⊆ F2) (h : WFD d F alph) : WFD d F2 alph := by
  intro s hs a ha
  obtain ⟨m, arcs, h1, h2, h3⟩ := h s hs a ha
  refine ⟨m, arcs, h1, h2, fun arc harc => ?_⟩
  obtain ⟨hsym, hdisj, hsub⟩ := h3 arc harc
  exact ⟨hsym, hdisj, hsub.trans hF⟩

theorem wfd_state_of_dict {d : DFA α} {alph : Finset α} {F : Finset String}
    {s : St} {f : α → List (Arc α)}
    (hA : d.arcs_at s = some (DictionaryArcs alph f))
    (hG : ∀ a ∈ alph, ∀ arc ∈ f a, GoodArc F a arc) :
    ∀ a ∈ alph, ∃ m arcs, d.arcs_at s = some m ∧ m.for_symbol a = some arcs ∧
      ∀ arc ∈ arcs, GoodArc F a arc := by
  intro a ha
  exact ⟨DictionaryArcs alph f, f a, hA,
    by rw [DictionaryArcs_for_symbol, if_pos ha], hG a ha⟩

theorem wfd_universal (alph : Finset α) : WFD (universal_dfa alph) ∅ alph := by
  have hP : ∀ s, Reach (universal_dfa alph) alph s → s = St.n 0 := by
    apply Reach.invariant (fun s => s = St.n 0) rfl
    intro s a m arcs arc _ _ h1 h2 harc
    exact (universal_dfa_arcs h1 h2 harc).2.2.2.2
  intro s hs
  rw [hP s hs]
  apply wfd_state_of_dict rfl
  intro a ha arc harc
  simp only [List.mem_singleton] at harc
  subst harc
  exact ⟨rfl, by simp, by simp⟩

theorem wfd_symbol {symb : α} {x : Variable} {alph : Finset α} {d : DFA α}
    (hd : symbol_dfa symb x alph = some d) : WFD d {x.name} alph := by
  have hstart : d.start = St.n 0 := by
    unfold symbol_dfa at hd
    split at hd
    · injection hd with hd
      subst hd
      rfl
    · exact absurd hd (by simp)
  have harcs0 : d.arcs_at (St.n 0) = some (DictionaryArcs alph fun a =>
      [⟨Sym.sym a, ∅, {x.name}, St.n 0⟩,
       ⟨Sym.sym a, {x.name}, ∅, if a = symb then St.n 0 else St.n 1⟩]) := by
    unfold symbol_dfa at hd
    split at hd
    · injection hd with hd
      subst hd
      rfl
    · exact absurd hd (by simp)
  have harcs1 : d.arcs_at (St.n 1) = some (DictionaryArcs alph fun a =>
      [⟨Sym.sym a, ∅, ∅, St.n 1⟩]) := by
    unfold symbol_dfa at hd
    split at hd
    · injection hd with hd
      subst hd
      rfl
    · exact absurd hd (by simp)
  have hP : ∀ s, Reach d alph s → s = St.n 0 ∨ s = St.n 1 := by
    apply Reach.invariant (fun s => s = St.n 0 ∨ s = St.n 1) (Or.inl hstart)
    intro s a m arcs arc _ _ h1 h2 harc
    exact (symbol_dfa_arcs hd h1 h2 harc).2.2.2.2
  intro s hs
  rcases hP s hs with rfl | rfl
  · apply wfd_state_of_dict harcs0
    intro a ha arc harc
    simp only [List.mem_cons, List.not_mem_nil, or_false] at harc
    rcases harc with rfl | rfl
    · exact ⟨rfl, by simp, by simp⟩
    · exact ⟨rfl, by simp, by simp⟩
  · apply wfd_state_of_dict harcs1
    intro a ha arc harc
    simp only [List.mem_singleton] at harc
    subst harc
    exact ⟨rfl, by simp, by simp⟩

theorem wfd_equal (x y : Variable) (alph : Finset α) :
    WFD (equal_dfa x y alph) {x.name, y.name} alph := by
  by_cases hxy : x.name = y.name
  · have he : equal_dfa x y alph = universal_dfa alph := by
      unfold equal_dfa
      rw [if_pos hxy]
    rw [he]
    exact WFD_mono (Finset.empty_subset _) (wfd_universal alph)
  · have harcs0 : (equal_dfa x y alph).arcs_at (St.n 0) =
        some (DictionaryArcs alph fun a =>
          [⟨Sym.sym a, ∅, {x.name, y.name}, St.n 0⟩,
           ⟨Sym.sym a, {x.name, y.name}, ∅, St.n 0⟩,
           ⟨Sym.sym a, {x.name}, {y.name}, St.n 1⟩,
           ⟨Sym.sym a, {y.name}, {x.name}, St.n 1⟩]) := by
      unfold equal_dfa
      rw [if_neg hxy]
      rfl
    have harcs1 : (equal_dfa x y alph).arcs_at (St.n 1) =
        some (DictionaryArcs alph fun a => [⟨Sym.sym a, ∅, ∅, St.n 1⟩]) := by
      unfold equal_dfa
      rw [if_neg hxy]
      rfl
    have hstart : (equal_dfa x y alph).start = St.n 0 := by
      unfold equal_dfa
      rw [if_neg hxy]
    have hxyd : ({x.name} : Finset String) ∩ {y.name} = ∅ :=
      Finset.singleton_inter_of_not_mem (by simpa using hxy)
    have hyxd : ({y.name} : Finset String) ∩ {x.name} = ∅ :=
      Finset.singleton_inter_of_not_mem (by simpa using fun hc => hxy hc.symm)
    have hP : ∀ s, Reach (equal_dfa x y alph) alph s →
        s = St.n 0 ∨ s = St.n 1 := by
      apply Reach.invariant (fun s => s = St.n 0 ∨ s = St.n 1) (Or.inl hstart)
      intro s a m arcs arc _ _ h1 h2 harc
      exact (equal_dfa_arcs h1 h2 harc).2.2.2.2
    intro s hs
    rcases hP s hs with rfl | rfl
    · apply wfd_state_of_dict harcs0
      intro a ha arc harc
      simp only [List.mem_cons, List.not_mem_nil, or_false] at harc
      rcases harc with rfl | rfl | rfl | rfl
      · exact ⟨rfl, by simp, by simp⟩
      · exact ⟨rfl, by simp, by simp⟩
      · exact ⟨rfl, hxyd, Finset.union_subset (by simp) (by simp)⟩
      · exact ⟨rfl, hyxd, Finset.union_subset (by simp) (by simp)⟩
    · apply wfd_state_of_dict harcs1
      intro a ha arc harc
      simp only [List.mem_singleton] at harc
      subst harc
      exact ⟨rfl, by simp, by simp⟩

theorem wfd_contained_in (x y : Variable) (alph : Finset α) :
    WFD (contained_in_dfa x y alph) {x.name, y.name} alph := by
  by_cases hxy : x.name = y.name
  · have he : contained_in_dfa x y alph = universal_dfa alph := by
      unfold contained_in_dfa
      rw [if_pos hxy]
    rw [he]
    exact WFD_mono (Finset.empty_subset _) (wfd_universal alph)
  · have harcs0 : (contained_in_dfa x y alph).arcs_at (St.n 0) =
        some (DictionaryArcs alph fun a =>
          [⟨Sym.sym a, ∅, {x.name}, St.n 0⟩,
           ⟨Sym.sym a, {x.name, y.name}, ∅, St.n 0⟩,
           ⟨Sym.sym a, {x.name}, {y.name}, St.n 1⟩]) := by
      unfold contained_in_dfa
      rw [if_neg hxy]
      rfl
    have harcs1 : (contained_in_dfa x y alph).arcs_at (St.n 1) =
        some (DictionaryArcs alph fun a => [⟨Sym.sym a, ∅, ∅, St.n 1⟩]) := by
      unfold contained_in_dfa
      rw [if_neg hxy]
      rfl
    have hstart : (contained_in_dfa x y alph).start = St.n 0 := by
      unfold contained_in_dfa
      rw [if_neg hxy]
    have hxyd : ({x.name} : Finset String) ∩ {y.name} = ∅ :=
      Finset.singleton_inter_of_not_mem (by simpa using hxy)
    have hP : ∀ s, Reach (contained_in_dfa x y alph) alph s →
        s = St.n 0 ∨ s = St.n 1 := by
      apply Reach.invariant (fun s => s = St.n 0 ∨ s = St.n 1) (Or.inl hstart)
      intro s a m arcs arc _ _ h1 h2 harc
      exact (contained_in_dfa_arcs h1 h2 harc).2.2.2.2
    intro s hs
    rcases hP s hs with rfl | rfl
    · apply wfd_state_of_dict harcs0
      intro a ha arc harc
      simp only [List.mem_cons, List.not_mem_nil, or_false] at harc
      rcases harc with rfl | rfl | rfl
      · exact ⟨rfl, by simp, by simp⟩
      · exact ⟨rfl, by simp, by simp⟩
      · exact ⟨rfl, hxyd, Finset.union_subset (by simp) (by simp)⟩
    · apply wfd_state_of_dict harcs1
      intro a ha arc harc
      simp only [List.mem_singleton] at harc
      subst harc
      exact ⟨rfl, by simp, by simp⟩

theorem wfd_singleton (x : Variable) (alph : Finset α) :
    WFD (singleton_dfa x alph) {x.name} alph := by
  have hP : ∀ s, Reach (singleton_dfa x alph) alph s →
      s = St.n 0 ∨ s = St.n 1 ∨ s = St.n 2 := by
    apply Reach.invariant (fun s => s = St.n 0 ∨ s = St.n 1 ∨ s = St.n 2)
      (Or.inl rfl)
    intro s a m arcs arc _ _ h1 h2 harc
    exact (singleton_dfa_arcs h1 h2 harc).2.2.2.2
  intro s hs
  rcases hP s hs with rfl | rfl | rfl
  · apply wfd_state_of_dict rfl
    intro a ha arc harc
    simp only [List.mem_cons, List.not_mem_nil, or_false] at harc
    rcases harc with rfl | rfl
    · exact ⟨rfl, by simp, by simp⟩
    · exact ⟨rfl, by simp, by simp⟩
  · apply wfd_state_of_dict rfl
    intro a ha arc harc
    simp only [List.mem_cons, List.not_mem_nil, or_false] at harc
    rcases harc with rfl | rfl
    · exact ⟨rfl, by simp, by simp⟩
    · exact ⟨rfl, by simp, by simp⟩
  · apply wfd_state_of_dict rfl
    intro a ha arc harc
    simp only [List.mem_singleton] at harc
    subst harc
    exact ⟨rfl, by simp, by simp⟩

theorem wfd_less {x y : Variable} (hxy : x.name ≠ y.name) (alph : Finset α) :
    WFD (less_dfa x y alph) {x.name, y.name} alph := by
  have hxyd : ({x.name} : Finset String) ∩ {y.name} = ∅ :=
    Finset.singleton_inter_of_not_mem (by simpa using hxy)
  have hyxd : ({y.name} : Finset String) ∩ {x.name} = ∅ :=
    Finset.singleton_inter_of_not_mem (by simpa using fun hc => hxy hc.symm)
  have hP : ∀ s, Reach (less_dfa x y alph) alph s →
      s = St.n 0 ∨ s = St.n 1 ∨ s = St.n 2 := by
    apply Reach.invariant (fun s => s = St.n 0 ∨ s = St.n 1 ∨ s = St.n 2)
      (Or.inl rfl)
    intro s a m arcs arc _ _ h1 h2 harc
    exact (less_dfa_arcs h1 h2 harc).2.2.2.2
  intro s hs
  rcases hP s hs with rfl | rfl | rfl
  · apply wfd_state_of_dict rfl
    intro a ha arc harc
    simp only [List.mem_cons, List.not_mem_nil, or_false] at harc
    rcases harc with rfl | rfl | rfl | rfl
    · exact ⟨rfl, Finset.inter_empty _, Finset.union_subset (by simp) (by simp)⟩
    · exact ⟨rfl, Finset.empty_inter _, by simp⟩
    · exact ⟨rfl, hxyd, Finset.union_subset (by simp) (by simp)⟩
    · exact ⟨rfl, hyxd, Finset.union_subset (by simp) (by simp)⟩
  · apply wfd_state_of_dict rfl
    intro a ha arc harc
    simp only [List.mem_cons, List.not_mem_nil, or_false] at harc
    rcases harc with rfl | rfl
    · exact ⟨rfl, by simp, by simp⟩
    · exact ⟨rfl, by simp, by simp⟩
  · apply wfd_state_of_dict rfl
    intro a ha arc harc
    simp only [List.mem_singleton] at harc
    subst harc
    exact ⟨rfl, by simp, by simp⟩

/-! Preservation of the invariant by the lazy compositions. -/

theorem IntersectionDFA_arcs_at (l r : DFA α) (x y : St) :
    (IntersectionDFA l r).arcs_at (St.pair x y) =
      match l.arcs_at x, r.arcs_at y with
      | some il, some ir => some (IntersectionArcs il ir)
      | _, _ => none := rfl

theorem IntersectionArcs_for_symbol (il ir : SymbolToArcsMapping α) (a : α) :
    (IntersectionArcs il ir).for_symbol a =
      match il.for_symbol a, ir.for_symbol a with
      | some la, some ra => intersectProd la ra
      | _, _ => none := rfl

theorem ProjectedNFA_arcs_at (d : DFA α) (v : String) (s : St) :
    (ProjectedNFA d v).arcs_at s =
      (d.arcs_at s).map (fun m => ProjectedArcs m v) := rfl

theorem ProjectedArcs_for_symbol (m : SymbolToArcsMapping α) (v : String) (a : α) :
    (ProjectedArcs m v).for_symbol a =
      (m.for_symbol a).bind (mapOpt (projectArc v)) := rfl

theorem DeterminizedDFA_arcs_at (d : DFA α) (xs : List St) :
    (DeterminizedDFA d).arcs_at (St.set xs) =
      (mapOpt d.arcs_at xs).map DeterminizedArcs := rfl

theorem intersectRow_mem {x : Arc α} {ra arcs : List (Arc α)}
    (h : intersectRow x ra = some arcs) {arc : Arc α} (ha : arc ∈ arcs) :
    ∃ ya ∈ ra, ∃ res, intersect_arcs x ya = some res ∧ arc ∈ res := by
  induction ra generalizing arcs with
  | nil =>
    unfold intersectRow at h
    injection h with h
    subst h
    simp at ha
  | cons y ys ih =>
    unfold intersectRow at h
    cases hxy : intersect_arcs x y with
    | none => rw [hxy] at h; exact absurd h (by simp)
    | some res1 =>
      rw [hxy] at h
      dsimp only at h
      cases hrow : intersectRow x ys with
      | none => rw [hrow] at h; exact absurd h (by simp)
      | some res2 =>
        rw [hrow] at h
        dsimp only at h
        injection h with h
        subst h
        rcases List.mem_append.mp ha with h1 | h2
        · exact ⟨y, List.mem_cons_self y ys, res1, hxy, h1⟩
        · obtain ⟨ya, hya, res, hres, harc⟩ := ih hrow h2
          exact ⟨ya, List.mem_cons_of_mem y hya, res, hres, harc⟩

theorem intersectProd_mem {la ra arcs : List (Arc α)}
    (h : intersectProd la ra = some arcs) {arc : Arc α} (ha : arc ∈ arcs) :
    ∃ xa ∈ la, ∃ ya ∈ ra, ∃ res, intersect_arcs xa ya = some res ∧ arc ∈ res := by
  induction la generalizing arcs with
  | nil =>
    unfold intersectProd at h
    injection h with h
    subst h
    simp at ha
  | cons x xs ih =>
    unfold intersectProd at h
    cases hrow : intersectRow x ra with
    | none => rw [hrow] at h; exact absurd h (by simp)
    | some res1 =>
      rw [hrow] at h
      dsimp only at h
      cases hprod : intersectProd xs ra with
      | none => rw [hprod] at h; exact absurd h (by simp)
      | some res2 =>
        rw [hprod] at h
        dsimp only at h
        injection h with h
        subst h
        rcases List.mem_append.mp ha with h1 | h2
        · obtain ⟨ya, hya, res, hres, harc⟩ := intersectRow_mem hrow h1
          exact ⟨x, List.mem_cons_self x xs, ya, hya, res, hres, harc⟩
        · obtain ⟨xa, hxa, ya, hya, res, hres, harc⟩ := ih hprod h2
          exact ⟨xa, List.mem_cons_of_mem x hxa, ya, hya, res, hres, harc⟩

theorem intersectRow_isSome {x : Arc α} {ra : List (Arc α)}
    (hx : x.pos ∩ x.neg = ∅) (hra : ∀ y ∈ ra, y.pos ∩ y.neg = ∅) :
    ∃ arcs, intersectRow x ra = some arcs := by
  induction ra with
  | nil => exact ⟨[], rfl⟩
  | cons y ys ih =>
    obtain ⟨res1, hres1⟩ :=
      intersect_arcs_isSome hx (hra y (List.mem_cons_self y ys))
    obtain ⟨res2, hres2⟩ := ih (fun z hz => hra z (List.mem_cons_of_mem y hz))
    refine ⟨res1 ++ res2, ?_⟩
    unfold intersectRow
    rw [hres1]
    dsimp only
    rw [hres2]

theorem intersectProd_isSome {la ra : List (Arc α)}
    (hla : ∀ x ∈ la, x.pos ∩ x.neg = ∅) (hra : ∀ y ∈ ra, y.pos ∩ y.neg = ∅) :
    ∃ arcs, intersectProd la ra = some arcs := by
  induction la with
  | nil => exact ⟨[], rfl⟩
  | cons x xs ih =>
    obtain ⟨res1, hres1⟩ :=
      intersectRow_isSome (hla x (List.mem_cons_self x xs)) hra
    obtain ⟨res2, hres2⟩ := ih (fun z hz => hla z (List.mem_cons_of_mem x hz))
    refine ⟨res1 ++ res2, ?_⟩
    unfold intersectProd
    rw [hres1]
    dsimp only
    rw [hres2]

theorem reach_complement {d : DFA α} {alph : Finset α} {s : St} :
    Reach (ComplementDFA d) alph s ↔ Reach d alph s := by
  constructor
  · intro h
    induction h with
    | start => exact .start
    | step hr ha h1 h2 harc ih => exact .step ih ha h1 h2 harc
  · intro h
    induction h with
    | start => exact .start
    | step hr ha h1 h2 harc ih => exact .step ih ha h1 h2 harc

theorem wfd_complement {d : DFA α} {F : Finset String} {alph : Finset α}
    (h : WFD d F alph) : WFD (ComplementDFA d) F alph := by
  intro s hs a ha
  exact h s (reach_complement.mp hs) a ha

theorem reach_intersection {l r : DFA α} {alph : Finset α} {s : St}
    (h : Reach (IntersectionDFA l r) alph s) :
    ∃ x y, s = St.pair x y ∧ Reach l alph x ∧ Reach r alph y := by
  induction h with
  | start => exact ⟨l.start, r.start, rfl, .start, .start⟩
  | step hr ha h1 h2 harc ih =>
    obtain ⟨x, y, rfl, hx, hy⟩ := ih
    rw [IntersectionDFA_arcs_at] at h1
    cases hlx : l.arcs_at x with
    | none => rw [hlx] at h1; exact absurd h1 (by simp)
    | some il =>
      cases hry : r.arcs_at y with
      | none => rw [hlx, hry] at h1; exact absurd h1 (by simp)
      | some ir =>
        rw [hlx, hry] at h1
        dsimp only at h1
        injection h1 with h1
        subst h1
        rw [IntersectionArcs_for_symbol] at h2
        cases hla : il.for_symbol _ with
        | none => rw [hla] at h2; exact absurd h2 (by simp)
        | some la =>
          cases hrb : ir.for_symbol _ with
          | none => rw [hla, hrb] at h2; exact absurd h2 (by simp)
          | some ra =>
            rw [hla, hrb] at h2
            dsimp only at h2
            obtain ⟨xa, hxa, ya, hya, res, hres, harcres⟩ :=
              intersectProd_mem h2 harc
            obtain ⟨_, _, _, hnext, _⟩ := intersect_arcs_mem hres harcres
            rw [hnext]
            exact ⟨xa.nextstate, ya.nextstate, rfl,
              .step hx ha hlx hla hxa, .step hy ha hry hrb hya⟩

theorem wfd_intersection {l r : DFA α} {Fl Fr : Finset String} {alph : Finset α}
    (hl : WFD l Fl alph) (hr : WFD r Fr alph) :
    WFD (IntersectionDFA l r) (Fl ∪ Fr) alph := by
  intro s hs a ha
  obtain ⟨x, y, rfl, hx, hy⟩ := reach_intersection hs
  obtain ⟨ml, arcsl, h1l, h2l, h3l⟩ := hl x hx a ha
  obtain ⟨mr, arcsr, h1r, h2r, h3r⟩ := hr y hy a ha
  obtain ⟨arcs, harcs⟩ := intersectProd_isSome
    (fun u hu => (h3l u hu).2.1) (fun u hu => (h3r u hu).2.1)
  refine ⟨IntersectionArcs ml mr, arcs, ?_, ?_, ?_⟩
  · rw [IntersectionDFA_arcs_at, h1l, h1r]
  · rw [IntersectionArcs_for_symbol, h2l, h2r]
    exact harcs
  · intro arc harc
    obtain ⟨xa, hxa, ya, hya, res, hres, harcres⟩ := intersectProd_mem harcs harc
    obtain ⟨hp, hn, hdisj, _, hsym⟩ := intersect_arcs_mem hres harcres
    obtain ⟨hsl, _, hsubl⟩ := h3l xa hxa
    obtain ⟨hsr, _, hsubr⟩ := h3r ya hya
    refine ⟨?_, hdisj, ?_⟩
    · rcases hsym with h | h
      · rw [h, hsl]
      · rw [h, hsr]
    · rw [hp, hn]
      intro w hw
      rcases Finset.mem_union.mp hw with hw2 | hw2
      · rcases Finset.mem_union.mp hw2 with hw3 | hw3
        · exact Finset.mem_union_left _ (hsubl (Finset.mem_union_left _ hw3))
        · exact Finset.mem_union_right _ (hsubr (Finset.mem_union_left _ hw3))
      · rcases Finset.mem_union.mp hw2 with hw3 | hw3
        · exact Finset.mem_union_left _ (hsubl (Finset.mem_union_right _ hw3))
        · exact Finset.mem_union_right _ (hsubr (Finset.mem_union_right _ hw3))

theorem projectArc_fields {v : String} {u u2 : Arc α}
    (h : projectArc v u = some u2) :
    u2.symbol = u.symbol ∧ u2.nextstate = u.nextstate := by
  unfold projectArc at h
  by_cases hp : v ∈ u.pos
  · rw [if_pos hp] at h
    by_cases hn : v ∈ u.neg
    · rw [if_pos hn] at h
      exact absurd h (by simp)
    · rw [if_neg hn] at h
      injection h with h
      subst h
      exact ⟨rfl, rfl⟩
  · rw [if_neg hp] at h
    by_cases hn : v ∈ u.neg
    · rw [if_pos hn] at h
      injection h with h
      subst h
      exact ⟨rfl, rfl⟩
    · rw [if_neg hn] at h
      injection h with h
      subst h
      exact ⟨rfl, rfl⟩

theorem reach_projection {d : DFA α} {v : String} {alph : Finset α} {s : St}
    (h : Reach (ProjectedNFA d v) alph s) : Reach d alph s := by
  induction h with
  | start => exact .start
  | step hr ha h1 h2 harc ih =>
    rw [ProjectedNFA_arcs_at] at h1
    cases hda : d.arcs_at _ with
    | none => rw [hda] at h1; exact absurd h1 (by simp)
    | some m0 =>
      rw [hda] at h1
      injection h1 with h1
      subst h1
      rw [ProjectedArcs_for_symbol] at h2
      cases hfs : m0.for_symbol _ with
      | none => rw [hfs] at h2; exact absurd h2 (by simp)
      | some arcs0 =>
        rw [hfs, Option.some_bind] at h2
        obtain ⟨u, hu, hproj⟩ := mapOpt_mem_of_mem h2 harc
        have hnext := (projectArc_fields hproj).2
        rw [hnext]
        exact .step ih ha hda hfs hu

theorem wfd_projection {d : DFA α} {F : Finset String} {alph : Finset α}
    {v : String} (h : WFD d F alph) :
    WFD (ProjectedNFA d v) (F.erase v) alph := by
  intro s hs a ha
  obtain ⟨m0, arcs0, h1, h2, h3⟩ := h s (reach_projection hs) a ha
  obtain ⟨arcs, harcs⟩ := mapOpt_isSome (f := projectArc v) arcs0
    (fun u hu => by
      obtain ⟨u2, hu2, _⟩ := projectArc_sound (v := v) (h3 u hu).2.1
      exact ⟨u2, hu2⟩)
  refine ⟨ProjectedArcs m0 v, arcs, ?_, ?_, ?_⟩
  · rw [ProjectedNFA_arcs_at, h1]
    rfl
  · rw [ProjectedArcs_for_symbol, h2]
    exact harcs
  · intro arc harc
    obtain ⟨u, hu, hproj⟩ := mapOpt_mem_of_mem harcs harc
    obtain ⟨hsym0, hdisj0, hsub0⟩ := h3 u hu
    obtain ⟨u2, hu2, hsym2, _, hdisj2, hlab2⟩ := projectArc_sound (v := v) hdisj0
    rw [hproj] at hu2
    injection hu2 with hu2
    subst hu2
    refine ⟨by rw [hsym2, hsym0], hdisj2, ?_⟩
    rw [hlab2]
    exact Finset.erase_subset_erase v hsub0

theorem reach_determinized {d : DFA α} {alph : Finset α} {s : St}
    (h : Reach (DeterminizedDFA d) alph s) :
    ∃ xs, s = St.set xs ∧ ∀ x ∈ xs, Reach d alph x := by
  induction h with
  | start =>
    refine ⟨canon [d.start], rfl, ?_⟩
    intro x hx
    rw [mem_canon] at hx
    simp only [List.mem_singleton] at hx
    subst hx
    exact .start
  | step hr ha h1 h2 harc ih =>
    rename_i s0 a0 m1 arcs1 arc1
    obtain ⟨xs, rfl, hxs⟩ := ih
    rw [DeterminizedDFA_arcs_at] at h1
    cases hmo : mapOpt d.arcs_at xs with
    | none => rw [hmo] at h1; exact absurd h1 (by simp)
    | some idxs =>
      rw [hmo] at h1
      injection h1 with h1
      subst h1
      have h2def : (mapOpt (fun m => m.for_symbol a0) idxs).map (detArcsFor a0) =
          some arcs1 := h2
      cases hms : mapOpt (fun m => m.for_symbol a0) idxs with
      | none => rw [hms] at h2def; exact absurd h2def (by simp)
      | some arcss =>
        rw [hms] at h2def
        injection h2def with h2def
        subst h2def
        obtain ⟨P, _, rfl⟩ := List.mem_map.mp harc
        refine ⟨_, rfl, ?_⟩
        intro y hy
        rw [mem_canon] at hy
        obtain ⟨u, hu, hcond⟩ := List.mem_filterMap.mp hy
        have hyeq : y = u.nextstate := by
          by_cases hc : P ∩ u.neg = ∅ ∧
              (arcVariables (joinAll arcss) \ P) ∩ u.pos = ∅
          · rw [if_pos hc] at hcond
            injection hcond with hcond
            exact hcond.symm
          · rw [if_neg hc] at hcond
            exact absurd hcond (by simp)
        obtain ⟨l, hl, hul⟩ := mem_joinAll.mp hu
        obtain ⟨idx, hidx, hfs⟩ := mapOpt_mem_of_mem hms hl
        obtain ⟨x, hx, hax⟩ := mapOpt_mem_of_mem hmo hidx
        rw [hyeq]
        exact .step (hxs x hx) ha hax hfs hul

theorem wfd_determinized {d : DFA α} {F : Finset String} {alph : Finset α}
    (h : WFD d F alph) : WFD (DeterminizedDFA d) F alph := by
  intro s hs a ha
  obtain ⟨xs, rfl, hxs⟩ := reach_determinized hs
  obtain ⟨idxs, hmo⟩ := mapOpt_isSome (f := d.arcs_at) xs
    (fun x hx => by
      obtain ⟨m, arcs, h1, _, _⟩ := h x (hxs x hx) a ha
      exact ⟨m, h1⟩)
  have hidxgood : ∀ idx ∈ idxs, ∃ arcs, idx.for_symbol a = some arcs ∧
      ∀ arc ∈ arcs, GoodArc F a arc := by
    intro idx hidx
    obtain ⟨x, hx, hax⟩ := mapOpt_mem_of_mem hmo hidx
    obtain ⟨m, arcs, h1, h2, h3⟩ := h x (hxs x hx) a ha
    rw [hax] at h1
    injection h1 with h1
    subst h1
    exact ⟨arcs, h2, h3⟩
  obtain ⟨arcss, hms⟩ := mapOpt_isSome (f := fun m => m.for_symbol a) idxs
    (fun idx hidx => by
      obtain ⟨arcs, h2, _⟩ := hidxgood idx hidx
      exact ⟨arcs, h2⟩)
  have hjoin : ∀ u ∈ joinAll arcss, GoodArc F a u := by
    intro u hu
    obtain ⟨l, hl, hul⟩ := mem_joinAll.mp hu
    obtain ⟨idx, hidx, hfs⟩ := mapOpt_mem_of_mem hms hl
    obtain ⟨arcs, h2, h3⟩ := hidxgood idx hidx
    rw [hfs] at h2
    injection h2 with h2
    subst h2
    exact h3 u hul
  have hVF : arcVariables (joinAll arcss) ⊆ F := by
    intro v hv
    obtain ⟨u, hu, hvu⟩ := mem_arcVariables.mp hv
    obtain ⟨_, _, hsub⟩ := hjoin u hu
    rcases hvu with h | h
    · exact hsub (Finset.mem_union_left _ h)
    · exact hsub (Finset.mem_union_right _ h)
  refine ⟨DeterminizedArcs idxs, detArcsFor a arcss, ?_, ?_, ?_⟩
  · rw [DeterminizedDFA_arcs_at, hmo]
    rfl
  · exact DeterminizedArcs_for_symbol_eq hms
  · intro arc harc
    refine ⟨?_, detArcsFor_disjoint harc, ?_⟩
    · obtain ⟨P, _, rfl⟩ := List.mem_map.mp harc
      rfl
    · obtain ⟨P, hP, rfl⟩ := List.mem_map.mp harc
      refine Finset.union_subset ?_ ?_
      · exact (mem_powersetList.mp hP).trans hVF
      · exact Finset.sdiff_subset.trans hVF

/-! For automata arising from closed formulas, every reachable state fires
exactly one arc per alphabet symbol, with an empty labelling. -/

def OneArc (d : DFA α) (alph : Finset α) : Prop :=
  ∀ s, Reach d alph s → ∀ a ∈ alph, ∃ m arc,
    d.arcs_at s = some m ∧ m.for_symbol a = some [arc] ∧ GoodArc ∅ a arc

theorem oneArc_complement {d : DFA α} {alph : Finset α}
    (h : OneArc d alph) : OneArc (ComplementDFA d) alph := by
  intro s hs a ha
  exact h s (reach_complement.mp hs) a ha

theorem intersect_arcs_single {a : α} {xa ya : Arc α}
    (hx : GoodArc ∅ a xa) (hy : GoodArc ∅ a ya) :
    intersect_arcs xa ya =
      some [⟨Sym.sym a, xa.pos ∪ ya.pos, xa.neg ∪ ya.neg,
             St.pair xa.nextstate ya.nextstate⟩] := by
  obtain ⟨hxs, hxd, hxsub⟩ := hx
  obtain ⟨hys, hyd, hysub⟩ := hy
  obtain ⟨hxp, hxn⟩ := Finset.union_eq_empty.mp (Finset.subset_empty.mp hxsub)
  obtain ⟨hyp, hyn⟩ := Finset.union_eq_empty.mp (Finset.subset_empty.mp hysub)
  unfold intersect_arcs
  rw [if_neg (by simpa using hxd), if_neg (by simpa using hyd)]
  have hms : mergeSymbol xa.symbol ya.symbol = some xa.symbol := by
    unfold mergeSymbol
    rw [if_pos (Or.inl (by rw [hxs, hys]))]
  rw [hms]
  dsimp only
  rw [if_pos (by rw [hxp, hxn, hyp, hyn]; simp), hxs]

theorem oneArc_intersection {l r : DFA α} {alph : Finset α}
    (hl : OneArc l alph) (hr : OneArc r alph) :
    OneArc (IntersectionDFA l r) alph := by
  intro s hs a ha
  obtain ⟨x, y, rfl, hx, hy⟩ := reach_intersection hs
  obtain ⟨ml, xa, h1l, h2l, h3l⟩ := hl x hx a ha
  obtain ⟨mr, ya, h1r, h2r, h3r⟩ := hr y hy a ha
  have hprod : intersectProd [xa] [ya] =
      some [⟨Sym.sym a, xa.pos ∪ ya.pos, xa.neg ∪ ya.neg,
             St.pair xa.nextstate ya.nextstate⟩] := by
    simp only [intersectProd, intersectRow, intersect_arcs_single h3l h3r,
      List.append_nil]
  obtain ⟨-, -, hxsub⟩ := h3l
  obtain ⟨-, -, hysub⟩ := h3r
  obtain ⟨hxp, hxn⟩ := Finset.union_eq_empty.mp (Finset.subset_empty.mp hxsub)
  obtain ⟨hyp, hyn⟩ := Finset.union_eq_empty.mp (Finset.subset_empty.mp hysub)
  refine ⟨IntersectionArcs ml mr,
    ⟨Sym.sym a, xa.pos ∪ ya.pos, xa.neg ∪ ya.neg,
     St.pair xa.nextstate ya.nextstate⟩, ?_, ?_, ?_⟩
  · rw [IntersectionDFA_arcs_at, h1l, h1r]
  · rw [IntersectionArcs_for_symbol, h2l, h2r]
    exact hprod
  · refine ⟨rfl, ?_, ?_⟩
    · rw [hxp, hxn, hyp, hyn]
      simp
    · rw [hxp, hxn, hyp, hyn]
      simp

theorem powersetList_empty : powersetList (∅ : Finset String) = [∅] := rfl

theorem filterMap_some_eq_map {f : β → γ} (l : List β) :
    l.filterMap (fun x => some (f x)) = l.map f := by
  induction l with
  | nil => rfl
  | cons x xs ih => simp [List.filterMap_cons, ih]

theorem detArcsFor_no_vars {a : α} {arcss : List (List (Arc α))}
    (hV : arcVariables (joinAll arcss) = ∅) :
    detArcsFor a arcss =
      [⟨Sym.sym a, ∅, ∅,
        St.set (canon ((joinAll arcss).map fun arc => arc.nextstate))⟩] := by
  unfold detArcsFor
  rw [hV, powersetList_empty, List.map_cons, List.map_nil]
  have hg : (fun arc : Arc α =>
      if (∅ : Finset String) ∩ arc.neg = ∅ ∧
         ((∅ : Finset String) \ ∅) ∩ arc.pos = ∅
      then some arc.nextstate else none) =
      fun arc : Arc α => some arc.nextstate := by
    funext arc
    rw [if_pos ⟨Finset.empty_inter _, by
      rw [Finset.empty_sdiff]; exact Finset.empty_inter _⟩]
  rw [hg, Finset.empty_sdiff, filterMap_some_eq_map]

theorem oneArc_determinized {d : DFA α} {alph : Finset α}
    (h : WFD d ∅ alph) : OneArc (DeterminizedDFA d) alph := by
  intro s hs a ha
  obtain ⟨xs, rfl, hxs⟩ := reach_determinized hs
  obtain ⟨idxs, hmo⟩ := mapOpt_isSome (f := d.arcs_at) xs
    (fun x hx => by
      obtain ⟨m, arcs, h1, _, _⟩ := h x (hxs x hx) a ha
      exact ⟨m, h1⟩)
  have hidxgood : ∀ idx ∈ idxs, ∃ arcs, idx.for_symbol a = some arcs ∧
      ∀ arc ∈ arcs, GoodArc ∅ a arc := by
    intro idx hidx
    obtain ⟨x, hx, hax⟩ := mapOpt_mem_of_mem hmo hidx
    obtain ⟨m, arcs, h1, h2, h3⟩ := h x (hxs x hx) a ha
    rw [hax] at h1
    injection h1 with h1
    subst h1
    exact ⟨arcs, h2, h3⟩
  obtain ⟨arcss, hms⟩ := mapOpt_isSome (f := fun m => m.for_symbol a) idxs
    (fun idx hidx => by
      obtain ⟨arcs, h2, _⟩ := hidxgood idx hidx
      exact ⟨arcs, h2⟩)
  have hjoin : ∀ u ∈ joinAll arcss, GoodArc ∅ a u := by
    intro u hu
    obtain ⟨l, hlmem, hul⟩ := mem_joinAll.mp hu
    obtain ⟨idx, hidx, hfs⟩ := mapOpt_mem_of_mem hms hlmem
    obtain ⟨arcs, h2, h3⟩ := hidxgood idx hidx
    rw [hfs] at h2
    injection h2 with h2
    subst h2
    exact h3 u hul
  have hV : arcVariables (joinAll arcss) = ∅ := by
    rw [Finset.eq_empty_iff_forall_not_mem]
    intro v hv
    obtain ⟨u, hu, hvu⟩ := mem_arcVariables.mp hv
    obtain ⟨-, -, hsub⟩ := hjoin u hu
    rcases hvu with hc | hc
    · exact absurd (hsub (Finset.mem_union_left _ hc)) (Finset.not_mem_empty v)
    · exact absurd (hsub (Finset.mem_union_right _ hc)) (Finset.not_mem_empty v)
  refine ⟨DeterminizedArcs idxs,
    ⟨Sym.sym a, ∅, ∅,
     St.set (canon ((joinAll arcss).map fun arc => arc.nextstate))⟩, ?_, ?_, ?_⟩
  · rw [DeterminizedDFA_arcs_at, hmo]
    rfl
  · rw [DeterminizedArcs_for_symbol_eq hms, detArcsFor_no_vars hV]
  · exact ⟨rfl, by simp, by simp⟩

theorem transition_single {d : DFA α} {s : St} {a : α}
    {m : SymbolToArcsMapping α} {arc : Arc α}
    (h1 : d.arcs_at s = some m) (h2 : m.for_symbol a = some [arc]) :
    transition d s a = some arc.nextstate := by
  unfold transition
  rw [h1]
  dsimp only
  rw [h2]
  dsimp only
  simp only [List.map_cons, List.map_nil]
  rw [List.dedup_cons_of_not_mem (List.not_mem_nil _), List.dedup_nil]

theorem oneArc_run {d : DFA α} {alph : Finset α} (h : OneArc d alph) :
    ∀ (w : List α), (∀ a ∈ w, a ∈ alph) → ∀ s, Reach d alph s →
      ∃ s2, List.foldlM (transition d) s w = some s2 ∧ Reach d alph s2 := by
  intro w
  induction w with
  | nil => exact fun _ s hs => ⟨s, rfl, hs⟩
  | cons a w ih =>
    intro hw s hs
    have ha : a ∈ alph := hw a (List.mem_cons_self a w)
    obtain ⟨m, arc, h1, h2, h3⟩ := h s hs a ha
    obtain ⟨s2, hfold, hs2⟩ := ih (fun b hb => hw b (List.mem_cons_of_mem a hb))
      arc.nextstate (.step hs ha h1 h2 (List.mem_singleton_self arc))
    refine ⟨s2, ?_, hs2⟩
    rw [List.foldlM_cons, transition_single h1 h2]
    simpa using hfold

theorem oneArc_accepts {d : DFA α} {alph : Finset α} (h : OneArc d alph)
    {w : List α} (hw : ∀ a ∈ w, a ∈ alph) : ∃ b, accepts d w = some b := by
  obtain ⟨s2, hfold, _⟩ := oneArc_run h w hw d.start .start
  refine ⟨d.final s2, ?_⟩
  show (w.foldlM (transition d) d.start).map d.final = some (d.final s2)
  rw [hfold]
  rfl

/-! The rewriting passes preserve free variables and the atom-level
side conditions. -/

theorem FV_connective_elimination (φ : WFF α) :
    FV (connective_elimination φ) = FV φ := by
  induction φ <;> simp [connective_elimination, FV, *]

theorem FV_make_not_dne (φ : WFF α) : FV (make_not_dne φ) = FV φ := by
  cases φ <;> simp [make_not_dne, FV]

theorem FV_double_negation_elimination (φ : WFF α) :
    FV (double_negation_elimination φ) = FV φ := by
  induction φ <;> simp [double_negation_elimination, FV, FV_make_not_dne, *]

theorem FV_make_exists_fo (v : Variable) (b : WFF α) :
    FV (make_exists_fo v b) = (FV b).erase v.name := by
  unfold make_exists_fo
  by_cases h : v.order = 1
  · rw [if_pos h]
    show (FV (.And (.Singleton ⟨v.name, 2⟩) b)).erase v.name = _
    show (({v.name} ∪ FV b : Finset String)).erase v.name = _
    rw [Finset.erase_union_distrib, Finset.erase_singleton, Finset.empty_union]
  · rw [if_neg h]
    rfl

theorem FV_first_order_replacement (φ : WFF α) :
    FV (first_order_replacement φ) = FV φ := by
  induction φ <;>
    simp [first_order_replacement, FV, FV_make_exists_fo, *]

theorem FV_simplify (φ : WFF α) : FV (simplify φ) = FV φ := by
  rw [simplify, FV_first_order_replacement, FV_double_negation_elimination,
    FV_connective_elimination]

theorem LessOk_connective_elimination {φ : WFF α} (h : LessOk φ = true) :
    LessOk (connective_elimination φ) = true := by
  induction φ <;> simp_all [connective_elimination, LessOk]

theorem LessOk_make_not_dne {φ : WFF α} (h : LessOk φ = true) :
    LessOk (make_not_dne φ) = true := by
  cases φ <;> simpa [make_not_dne, LessOk] using h

theorem LessOk_double_negation_elimination {φ : WFF α} (h : LessOk φ = true) :
    LessOk (double_negation_elimination φ) = true := by
  induction φ with
  | Exists v b ih =>
    simp only [LessOk] at h
    simpa [double_negation_elimination, LessOk] using ih h
  | Forall v b ih =>
    simp only [LessOk] at h
    simpa [double_negation_elimination, LessOk] using ih h
  | Not b ih =>
    simp only [LessOk] at h
    exact LessOk_make_not_dne
      (by simpa [double_negation_elimination] using ih h)
  | And l r ihl ihr =>
    simp only [LessOk, Bool.and_eq_true] at h
    simp [double_negation_elimination, LessOk, ihl h.1, ihr h.2]
  | If l r ihl ihr =>
    simp only [LessOk, Bool.and_eq_true] at h
    simp [double_negation_elimination, LessOk, ihl h.1, ihr h.2]
  | Or l r ihl ihr =>
    simp only [LessOk, Bool.and_eq_true] at h
    simp [double_negation_elimination, LessOk, ihl h.1, ihr h.2]
  | _ => simpa [double_negation_elimination] using h

theorem LessOk_make_exists_fo {v : Variable} {b : WFF α} (h : LessOk b = true) :
    LessOk (make_exists_fo v b) = true := by
  unfold make_exists_fo
  by_cases hv : v.order = 1
  · rw [if_pos hv]
    simpa [LessOk] using h
  · rw [if_neg hv]
    simpa [LessOk] using h

theorem LessOk_first_order_replacement {φ : WFF α} (h : LessOk φ = true) :
    LessOk (first_order_replacement φ) = true := by
  induction φ with
  | Exists v b ih =>
    simp only [LessOk] at h
    exact LessOk_make_exists_fo
      (by simpa [first_order_replacement] using ih h)
  | Forall v b ih =>
    simp only [LessOk] at h
    simpa [first_order_replacement, LessOk] using ih h
  | Not b ih =>
    simp only [LessOk] at h
    simpa [first_order_replacement, LessOk] using ih h
  | And l r ihl ihr =>
    simp only [LessOk, Bool.and_eq_true] at h
    simp [first_order_replacement, LessOk, ihl h.1, ihr h.2]
  | If l r ihl ihr =>
    simp only [LessOk, Bool.and_eq_true] at h
    simp [first_order_replacement, LessOk, ihl h.1, ihr h.2]
  | Or l r ihl ihr =>
    simp only [LessOk, Bool.and_eq_true] at h
    simp [first_order_replacement, LessOk, ihl h.1, ihr h.2]
  | _ => simpa [first_order_replacement] using h

theorem LessOk_simplify {φ : WFF α} (h : LessOk φ = true) :
    LessOk (simplify φ) = true :=
  LessOk_first_order_replacement
    (LessOk_double_negation_elimination (LessOk_connective_elimination h))

theorem SymOk_connective_elimination {alph : Finset α} {φ : WFF α}
    (h : SymOk alph φ = true) :
    SymOk alph (connective_elimination φ) = true := by
  induction φ <;> simp_all [connective_elimination, SymOk]

theorem SymOk_make_not_dne {alph : Finset α} {φ : WFF α}
    (h : SymOk alph φ = true) : SymOk alph (make_not_dne φ) = true := by
  cases φ <;> simpa [make_not_dne, SymOk] using h

theorem SymOk_double_negation_elimination {alph : Finset α} {φ : WFF α}
    (h : SymOk alph φ = true) :
    SymOk alph (double_negation_elimination φ) = true := by
  induction φ with
  | Exists v b ih =>
    simp only [SymOk] at h
    simpa [double_negation_elimination, SymOk] using ih h
  | Forall v b ih =>
    simp only [SymOk] at h
    simpa [double_negation_elimination, SymOk] using ih h
  | Not b ih =>
    simp only [SymOk] at h
    exact SymOk_make_not_dne
      (by simpa [double_negation_elimination] using ih h)
  | And l r ihl ihr =>
    simp only [SymOk, Bool.and_eq_true] at h
    simp [double_negation_elimination, SymOk, ihl h.1, ihr h.2]
  | If l r ihl ihr =>
    simp only [SymOk, Bool.and_eq_true] at h
    simp [double_negation_elimination, SymOk, ihl h.1, ihr h.2]
  | Or l r ihl ihr =>
    simp only [SymOk, Bool.and_eq_true] at h
    simp [double_negation_elimination, SymOk, ihl h.1, ihr h.2]
  | _ => simpa [double_negation_elimination] using h

theorem SymOk_make_exists_fo {alph : Finset α} {v : Variable} {b : WFF α}
    (h : SymOk alph b = true) : SymOk alph (make_exists_fo v b) = true := by
  unfold make_exists_fo
  by_cases hv : v.order = 1
  · rw [if_pos hv]
    simpa [SymOk] using h
  · rw [if_neg hv]
    simpa [SymOk] using h

theorem SymOk_first_order_replacement {alph : Finset α} {φ : WFF α}
    (h : SymOk alph φ = true) :
    SymOk alph (first_order_replacement φ) = true := by
  induction φ with
  | Exists v b ih =>
    simp only [SymOk] at h
    exact SymOk_make_exists_fo
      (by simpa [first_order_replacement] using ih h)
  | Forall v b ih =>
    simp only [SymOk] at h
    simpa [first_order_replacement, SymOk] using ih h
  | Not b ih =>
    simp only [SymOk] at h
    simpa [first_order_replacement, SymOk] using ih h
  | And l r ihl ihr =>
    simp only [SymOk, Bool.and_eq_true] at h
    simp [first_order_replacement, SymOk, ihl h.1, ihr h.2]
  | If l r ihl ihr =>
    simp only [SymOk, Bool.and_eq_true] at h
    simp [first_order_replacement, SymOk, ihl h.1, ihr h.2]
  | Or l r ihl ihr =>
    simp only [SymOk, Bool.and_eq_true] at h
    simp [first_order_replacement, SymOk, ihl h.1, ihr h.2]
  | _ => simpa [first_order_replacement] using h

theorem SymOk_simplify {alph : Finset α} {φ : WFF α} (h : SymOk alph φ = true) :
    SymOk alph (simplify φ) = true :=
  SymOk_first_order_replacement
    (SymOk_double_negation_elimination (SymOk_connective_elimination h))

theorem fioFree_of_NF {φ : WFF α} (h : NF φ = true) : fioFree φ = true := by
  induction φ <;> simp_all [NF, fioFree, isAtomic]

theorem fioFree_simplify {φ : WFF α} (ho : OrdersValid φ = true) :
    fioFree (simplify φ) = true :=
  fioFree_of_NF (NF_first_order_replacement
    (fioFree_double_negation_elimination (fioFree_connective_elimination φ))
    (OrdersValid_double_negation_elimination
      (OrdersValid_connective_elimination ho)))

/-! The translation produces well-formed automata, and single-arc automata
for closed formulas. -/

theorem translation_visit_wf {alph : Finset α} {ψ : WFF α}
    (hf : fioFree ψ = true) (hl : LessOk ψ = true) (hs : SymOk alph ψ = true) :
    ∃ d, translation_visit alph ψ = some d ∧ WFD d (FV ψ) alph := by
  induction ψ with
  | Exists v b ih =>
    simp only [fioFree] at hf
    simp only [LessOk] at hl
    simp only [SymOk] at hs
    obtain ⟨bd, hbd, hwfd⟩ := ih hf hl hs
    refine ⟨DeterminizedDFA (ProjectedNFA bd v.name), ?_, ?_⟩
    · show (translation_visit alph b).map _ = _
      rw [hbd]
      rfl
    · exact wfd_determinized (wfd_projection hwfd)
  | Forall v b ih =>
    simp only [fioFree] at hf
    exact Bool.noConfusion hf
  | Not b ih =>
    simp only [fioFree] at hf
    simp only [LessOk] at hl
    simp only [SymOk] at hs
    obtain ⟨bd, hbd, hwfd⟩ := ih hf hl hs
    refine ⟨ComplementDFA bd, ?_, wfd_complement hwfd⟩
    show (translation_visit alph b).map _ = _
    rw [hbd]
    rfl
  | And l r ihl ihr =>
    simp only [fioFree, Bool.and_eq_true] at hf
    simp only [LessOk, Bool.and_eq_true] at hl
    simp only [SymOk, Bool.and_eq_true] at hs
    obtain ⟨ld, hld, hwfl⟩ := ihl hf.1 hl.1 hs.1
    obtain ⟨rd, hrd, hwfr⟩ := ihr hf.2 hl.2 hs.2
    refine ⟨IntersectionDFA ld rd, ?_, wfd_intersection hwfl hwfr⟩
    show (match translation_visit alph l, translation_visit alph r with
      | some ld, some rd => some (IntersectionDFA ld rd)
      | _, _ => none) = _
    rw [hld, hrd]
  | If l r ihl ihr =>
    simp only [fioFree] at hf
    exact Bool.noConfusion hf
  | Or l r ihl ihr =>
    simp only [fioFree] at hf
    exact Bool.noConfusion hf
  | ContainedIn l r =>
    exact ⟨contained_in_dfa l r alph, rfl, wfd_contained_in l r alph⟩
  | Equal l r =>
    exact ⟨equal_dfa l r alph, rfl, wfd_equal l r alph⟩
  | Less l r =>
    simp only [LessOk] at hl
    exact ⟨less_dfa l r alph, rfl, wfd_less (of_decide_eq_true hl) alph⟩
  | Singleton v =>
    exact ⟨singleton_dfa v alph, rfl, wfd_singleton v alph⟩
  | Symbol s v =>
    simp only [SymOk] at hs
    have hmem : s ∈ alph := of_decide_eq_true hs
    have hd : ∃ d, symbol_dfa s v alph = some d := by
      unfold symbol_dfa
      rw [if_pos hmem]
      exact ⟨_, rfl⟩
    obtain ⟨d, hd⟩ := hd
    exact ⟨d, hd, wfd_symbol hd⟩

theorem translation_visit_oneArc {alph : Finset α} {ψ : WFF α}
    (hf : fioFree ψ = true) (hl : LessOk ψ = true) (hs : SymOk alph ψ = true)
    (hc : FV ψ = ∅) {d : DFA α} (hd : translation_visit alph ψ = some d) :
    OneArc d alph := by
  induction ψ generalizing d with
  | Exists v b ih =>
    simp only [fioFree] at hf
    simp only [LessOk] at hl
    simp only [SymOk] at hs
    obtain ⟨bd, hbd, hwfd⟩ := translation_visit_wf hf hl hs
    simp only [translation_visit, hbd, Option.map_some', Option.some.injEq] at hd
    subst hd
    have hproj := wfd_projection (v := v.name) hwfd
    have hce : (FV b).erase v.name = ∅ := hc
    rw [hce] at hproj
    exact oneArc_determinized hproj
  | Forall v b ih =>
    simp only [fioFree] at hf
    exact Bool.noConfusion hf
  | Not b ih =>
    simp only [fioFree] at hf
    simp only [LessOk] at hl
    simp only [SymOk] at hs
    simp only [translation_visit] at hd
    cases hbv : translation_visit alph b with
    | none => rw [hbv] at hd; exact absurd hd (by simp)
    | some bd =>
      rw [hbv, Option.map_some', Option.some.injEq] at hd
      subst hd
      exact oneArc_complement (ih hf hl hs hc hbv)
  | And l r ihl ihr =>
    simp only [fioFree, Bool.and_eq_true] at hf
    simp only [LessOk, Bool.and_eq_true] at hl
    simp only [SymOk, Bool.and_eq_true] at hs
    have hc2 : FV l = ∅ ∧ FV r = ∅ :=
      Finset.union_eq_empty.mp (by exact hc)
    simp only [translation_visit] at hd
    cases hlv : translation_visit alph l with
    | none => rw [hlv] at hd; exact absurd hd (by simp)
    | some ld =>
      cases hrv : translation_visit alph r with
      | none => rw [hlv, hrv] at hd; exact absurd hd (by simp)
      | some rd =>
        rw [hlv, hrv] at hd
        dsimp only at hd
        injection hd with hd
        subst hd
        exact oneArc_intersection (ihl hf.1 hl.1 hs.1 hc2.1 hlv)
          (ihr hf.2 hl.2 hs.2 hc2.2 hrv)
  | If l r ihl ihr =>
    simp only [fioFree] at hf
    exact Bool.noConfusion hf
  | Or l r ihl ihr =>
    simp only [fioFree] at hf
    exact Bool.noConfusion hf
  | ContainedIn l r =>
    exact absurd hc (Finset.insert_ne_empty _ _)
  | Equal l r =>
    exact absurd hc (Finset.insert_ne_empty _ _)
  | Less l r =>
    exact absurd hc (Finset.insert_ne_empty _ _)
  | Singleton v =>
    exact absurd hc (Finset.singleton_ne_empty _)
  | Symbol s v =>
    exact absurd hc (Finset.singleton_ne_empty _)

theorem translate_total {φ : WFF α} {alph : Finset α}
    (ho : OrdersValid φ = true) (hl : LessOk φ = true)
    (hs : SymOk alph φ = true) (hc : FV φ = ∅) :
    ∃ d, translate φ alph = some d ∧
      ∀ w : List α, (∀ a ∈ w, a ∈ alph) → ∃ b, accepts d w = some b := by
  obtain ⟨d, hd, _⟩ := translation_visit_wf (ψ := simplify φ)
    (fioFree_simplify ho) (LessOk_simplify hl) (SymOk_simplify hs)
  have hoa : OneArc d alph :=
    translation_visit_oneArc (fioFree_simplify ho) (LessOk_simplify hl)
      (SymOk_simplify hs) (by rw [FV_simplify]; exact hc) hd
  exact ⟨d, hd, fun w hw => oneArc_accepts hoa hw⟩

/-! The complement construction and the shape of simplify on a negation. -/

theorem transition_complement (d : DFA α) :
    transition (ComplementDFA d) = transition d := rfl

theorem accepts_complement (d : DFA α) (w : List α) :
    accepts (ComplementDFA d) w = (accepts d w).map (fun b => !b) := by
  show (w.foldlM (transition (ComplementDFA d)) d.start).map
      (fun s => ! d.final s) =
    ((w.foldlM (transition d) d.start).map d.final).map (fun b => !b)
  rw [transition_complement]
  cases hf : w.foldlM (transition d) d.start with
  | none => rfl
  | some s => rfl

theorem make_not_dne_of_not_not {ψ : WFF α} (h : ∀ b, ψ ≠ WFF.Not b) :
    make_not_dne ψ = WFF.Not ψ := by
  cases ψ <;> first
    | exact absurd rfl (h _)
    | rfl

theorem simplify_not (φ : WFF α) :
    (∃ ψ, double_negation_elimination (connective_elimination φ) = WFF.Not ψ ∧
       simplify (WFF.Not φ) = first_order_replacement ψ ∧
       simplify φ = WFF.Not (first_order_replacement ψ)) ∨
    simplify (WFF.Not φ) = WFF.Not (simplify φ) := by
  by_cases hn : ∃ ψ,
      double_negation_elimination (connective_elimination φ) = WFF.Not ψ
  · obtain ⟨ψ, hψ⟩ := hn
    left
    refine ⟨ψ, hψ, ?_, ?_⟩
    · show first_order_replacement (make_not_dne
        (double_negation_elimination (connective_elimination φ))) =
        first_order_replacement ψ
      rw [hψ]
      rfl
    · show first_order_replacement
        (double_negation_elimination (connective_elimination φ)) =
        WFF.Not (first_order_replacement ψ)
      rw [hψ]
      rfl
  · right
    push_neg at hn
    show first_order_replacement (make_not_dne
      (double_negation_elimination (connective_elimination φ))) =
      WFF.Not (first_order_replacement
        (double_negation_elimination (connective_elimination φ)))
    rw [make_not_dne_of_not_not hn]
    rfl

/-- Claim C6 (amended: the closed formula must additionally relate two
distinct variable names in every Less atom, bind only order-1/2 variables,
and use only alphabet symbols in Symbol atoms; without the Less restriction
the membership run can hit the single-successor assertion, see the
counterexample): for such a closed formula the translation succeeds, every
reachable state of the resulting automaton fires exactly one arc with empty
labelling per alphabet symbol, and accepts terminates normally with a
boolean on every word over the alphabet. -/
theorem C6_closed_translation_accepts_total {φ : WFF α} {alph : Finset α}
    (ho : OrdersValid φ = true) (hl : LessOk φ = true)
    (hs : SymOk alph φ = true) (hc : FV φ = ∅) :
    ∃ d, translate φ alph = some d ∧ OneArc d alph ∧
      ∀ w : List α, (∀ a ∈ w, a ∈ alph) → ∃ b, accepts d w = some b := by
  obtain ⟨d, hd, _⟩ := translation_visit_wf (ψ := simplify φ)
    (fioFree_simplify ho) (LessOk_simplify hl) (SymOk_simplify hs)
  have hoa : OneArc d alph :=
    translation_visit_oneArc (fioFree_simplify ho) (LessOk_simplify hl)
      (SymOk_simplify hs) (by rw [FV_simplify]; exact hc) hd
  exact ⟨d, hd, hoa, fun w hw => oneArc_accepts hoa hw⟩

/-- Counterexample to claim C6 as frozen: the closed formula Exists x1
(Less x1 x1) translates successfully, yet on the word [0] over the
alphabet {0} the membership run aborts (the fired arcs carry overlapping
pos/neg labellings, producing two distinct successor macro-states), so
accepts does not return a boolean. -/
theorem C6_counterexample_closed_less :
    FV (WFF.Exists ⟨"x", 1⟩ (WFF.Less ⟨"x", 1⟩ ⟨"x", 1⟩) : WFF Nat) = ∅ ∧
    OrdersValid
      (WFF.Exists ⟨"x", 1⟩ (WFF.Less ⟨"x", 1⟩ ⟨"x", 1⟩) : WFF Nat) = true ∧
    SymOk ({0} : Finset Nat)
      (WFF.Exists ⟨"x", 1⟩ (WFF.Less ⟨"x", 1⟩ ⟨"x", 1⟩)) = true ∧
    (translate (WFF.Exists ⟨"x", 1⟩ (WFF.Less ⟨"x", 1⟩ ⟨"x", 1⟩))
      ({0} : Finset Nat)).isSome = true ∧
    (translate (WFF.Exists ⟨"x", 1⟩ (WFF.Less ⟨"x", 1⟩ ⟨"x", 1⟩))
      ({0} : Finset Nat)).bind (fun d => accepts d [0]) = none := by
  decide

theorem C6_closed_translation_accepts_total_witness :
    OrdersValid
      (WFF.Exists ⟨"X", 2⟩ (WFF.ContainedIn ⟨"X", 2⟩ ⟨"X", 2⟩) : WFF Nat)
        = true ∧
    LessOk
      (WFF.Exists ⟨"X", 2⟩ (WFF.ContainedIn ⟨"X", 2⟩ ⟨"X", 2⟩) : WFF Nat)
        = true ∧
    SymOk ({0} : Finset Nat)
      (WFF.Exists ⟨"X", 2⟩ (WFF.ContainedIn ⟨"X", 2⟩ ⟨"X", 2⟩)) = true ∧
    FV (WFF.Exists ⟨"X", 2⟩ (WFF.ContainedIn ⟨"X", 2⟩ ⟨"X", 2⟩) : WFF Nat)
        = ∅ ∧
    ∃ d, translate (WFF.Exists ⟨"X", 2⟩ (WFF.ContainedIn ⟨"X", 2⟩ ⟨"X", 2⟩))
        ({0} : Finset Nat) = some d ∧ OneArc d {0} ∧
      ∀ w : List Nat, (∀ a ∈ w, a ∈ ({0} : Finset Nat)) →
        ∃ b, accepts d w = some b :=
  ⟨by decide, by decide, by decide, by decide,
   C6_closed_translation_accepts_total (by decide) (by decide) (by decide)
     (by decide)⟩

/-- Claim C1 (amended: same side conditions as for C6 — distinct names in
every Less atom, valid quantifier orders, alphabet symbols only; without
them both runs can abort, see the counterexample): for such a closed
formula both translations succeed and on every word over the alphabet the
automaton of the negated formula accepts exactly the boolean negation of
what the automaton of the formula accepts. -/
theorem C1_complement_negates {φ : WFF α} {alph : Finset α}
    (ho : OrdersValid φ = true) (hl : LessOk φ = true)
    (hs : SymOk alph φ = true) (hc : FV φ = ∅)
    {w : List α} (hw : ∀ a ∈ w, a ∈ alph) :
    ∃ d dn b, translate φ alph = some d ∧
      translate (WFF.Not φ) alph = some dn ∧
      accepts d w = some b ∧ accepts dn w = some (!b) := by
  obtain ⟨d, hd, hacc⟩ := translate_total ho hl hs hc
  obtain ⟨b, hb⟩ := hacc w hw
  rcases simplify_not φ with ⟨ψ, hψ, hnotφ, hφ⟩ | hnot
  · have hdA : translate φ alph =
        (translation_visit alph (first_order_replacement ψ)).map
          ComplementDFA := by
      show translation_visit alph (simplify φ) = _
      rw [hφ]
      rfl
    rw [hdA] at hd
    cases hd0 : translation_visit alph (first_order_replacement ψ) with
    | none => rw [hd0] at hd; exact absurd hd (by simp)
    | some d0 =>
      rw [hd0, Option.map_some', Option.some.injEq] at hd
      subst hd
      have hdn : translate (WFF.Not φ) alph = some d0 := by
        show translation_visit alph (simplify (WFF.Not φ)) = _
        rw [hnotφ]
        exact hd0
      rw [accepts_complement] at hb
      cases hb0 : accepts d0 w with
      | none => rw [hb0] at hb; exact absurd hb (by simp)
      | some b0 =>
        rw [hb0, Option.map_some', Option.some.injEq] at hb
        subst hb
        refine ⟨ComplementDFA d0, d0, !b0, ?_, hdn, ?_, ?_⟩
        · rw [hdA, hd0, Option.map_some']
        · rw [accepts_complement, hb0, Option.map_some']
        · rw [hb0]
          congr 1
          simp
  · have hdn : translate (WFF.Not φ) alph = some (ComplementDFA d) := by
      show translation_visit alph (simplify (WFF.Not φ)) = _
      rw [hnot]
      show (translation_visit alph (simplify φ)).map ComplementDFA = _
      rw [show translation_visit alph (simplify φ) = some d from hd]
      rfl
    refine ⟨d, ComplementDFA d, b, hd, hdn, hb, ?_⟩
    rw [accepts_complement, hb, Option.map_some']

/-- Counterexample to claim C1 as frozen: for the closed formula Exists x1
(Less x1 x1) both translations succeed, but on the word [0] over {0} both
membership runs abort, so neither side returns a boolean and no negation
relationship holds. -/
theorem C1_counterexample_closed_less :
    FV (WFF.Exists ⟨"x", 1⟩ (WFF.Less ⟨"x", 1⟩ ⟨"x", 1⟩) : WFF Nat) = ∅ ∧
    (translate (WFF.Exists ⟨"x", 1⟩ (WFF.Less ⟨"x", 1⟩ ⟨"x", 1⟩))
      ({0} : Finset Nat)).isSome = true ∧
    (translate (WFF.Not (WFF.Exists ⟨"x", 1⟩ (WFF.Less ⟨"x", 1⟩ ⟨"x", 1⟩)))
      ({0} : Finset Nat)).isSome = true ∧
    (translate (WFF.Exists ⟨"x", 1⟩ (WFF.Less ⟨"x", 1⟩ ⟨"x", 1⟩))
      ({0} : Finset Nat)).bind (fun d => accepts d [0]) = none ∧
    (translate (WFF.Not (WFF.Exists ⟨"x", 1⟩ (WFF.Less ⟨"x", 1⟩ ⟨"x", 1⟩)))
      ({0} : Finset Nat)).bind (fun d => accepts d [0]) = none := by
  decide

theorem C1_complement_negates_witness :
    (OrdersValid
        (WFF.Exists ⟨"X", 2⟩ (WFF.ContainedIn ⟨"X", 2⟩ ⟨"X", 2⟩) : WFF Nat)
          = true ∧
      LessOk
        (WFF.Exists ⟨"X", 2⟩ (WFF.ContainedIn ⟨"X", 2⟩ ⟨"X", 2⟩) : WFF Nat)
          = true ∧
      SymOk ({0} : Finset Nat)
        (WFF.Exists ⟨"X", 2⟩ (WFF.ContainedIn ⟨"X", 2⟩ ⟨"X", 2⟩)) = true ∧
      FV (WFF.Exists ⟨"X", 2⟩ (WFF.ContainedIn ⟨"X", 2⟩ ⟨"X", 2⟩) : WFF Nat)
          = ∅ ∧
      (∀ a ∈ [0], a ∈ ({0} : Finset Nat))) ∧
    ∃ d dn b,
      translate (WFF.Exists ⟨"X", 2⟩ (WFF.ContainedIn ⟨"X", 2⟩ ⟨"X", 2⟩))
        ({0} : Finset Nat) = some d ∧
      translate (WFF.Not (WFF.Exists ⟨"X", 2⟩
        (WFF.ContainedIn ⟨"X", 2⟩ ⟨"X", 2⟩))) ({0} : Finset Nat) = some dn ∧
      accepts d [0] = some b ∧ accepts dn [0] = some (!b) :=
  ⟨⟨by decide, by decide, by decide, by decide, by decide⟩,
   C1_complement_negates (by decide) (by decide) (by decide) (by decide)
     (by decide)⟩

/-- Claim C9 (amended: the Less table keeps pos and neg disjoint only when
its two variables have distinct names — for a repeated name it emits arcs
whose pos and neg overlap, see the counterexample): every arc of the
universal, Symbol, Equal, ContainedIn and Singleton tables has pos and neg
disjoint, as does every arc of the Less table over distinct names; arc
intersection and determinization emit only disjoint arcs, and projection
preserves disjointness. -/
theorem C9_disjointness_invariant (alph : Finset α) :
    (∀ {s : St} {m : SymbolToArcsMapping α} {a : α} {arcs : List (Arc α)}
      (arc : Arc α), (universal_dfa alph).arcs_at s = some m →
      m.for_symbol a = some arcs → arc ∈ arcs → arc.pos ∩ arc.neg = ∅) ∧
    (∀ {symb : α} {x : Variable} {d : DFA α} {s : St}
      {m : SymbolToArcsMapping α} {a : α} {arcs : List (Arc α)} (arc : Arc α),
      symbol_dfa symb x alph = some d → d.arcs_at s = some m →
      m.for_symbol a = some arcs → arc ∈ arcs → arc.pos ∩ arc.neg = ∅) ∧
    (∀ (x y : Variable) {s : St} {m : SymbolToArcsMapping α} {a : α}
      {arcs : List (Arc α)} (arc : Arc α),
      (equal_dfa x y alph).arcs_at s = some m → m.for_symbol a = some arcs →
      arc ∈ arcs → arc.pos ∩ arc.neg = ∅) ∧
    (∀ (x y : Variable) {s : St} {m : SymbolToArcsMapping α} {a : α}
      {arcs : List (Arc α)} (arc : Arc α),
      (contained_in_dfa x y alph).arcs_at s = some m →
      m.for_symbol a = some arcs → arc ∈ arcs → arc.pos ∩ arc.neg = ∅) ∧
    (∀ (x : Variable) {s : St} {m : SymbolToArcsMapping α} {a : α}
      {arcs : List (Arc α)} (arc : Arc α),
      (singleton_dfa x alph).arcs_at s = some m → m.for_symbol a = some arcs →
      arc ∈ arcs → arc.pos ∩ arc.neg = ∅) ∧
    (∀ (x y : Variable), x.name ≠ y.name → ∀ {s : St}
      {m : SymbolToArcsMapping α} {a : α} {arcs : List (Arc α)} (arc : Arc α),
      (less_dfa x y alph).arcs_at s = some m → m.for_symbol a = some arcs →
      arc ∈ arcs → arc.pos ∩ arc.neg = ∅) ∧
    (∀ (l r : Arc α) (res : List (Arc α)) (arc : Arc α),
      intersect_arcs l r = some res → arc ∈ res →
      arc.pos ∩ arc.neg = ∅) ∧
    (∀ (v : String) (u u2 : Arc α), u.pos ∩ u.neg = ∅ →
      projectArc v u = some u2 → u2.pos ∩ u2.neg = ∅) ∧
    (∀ (a : α) (arcss : List (List (Arc α))) (arc : Arc α),
      arc ∈ detArcsFor a arcss → arc.pos ∩ arc.neg = ∅) := by
  refine ⟨?_, ?_, ?_, ?_, ?_, ?_, ?_, ?_, ?_⟩
  · intro s m a arcs arc h1 h2 harc
    obtain ⟨-, -, hp, hn, -⟩ := universal_dfa_arcs h1 h2 harc
    rw [hp, hn]
    simp
  · intro symb x d s m a arcs arc hd h1 h2 harc
    exact (symbol_dfa_arcs hd h1 h2 harc).2.2.2.1
  · intro x y s m a arcs arc h1 h2 harc
    exact (equal_dfa_arcs h1 h2 harc).2.2.2.1
  · intro x y s m a arcs arc h1 h2 harc
    exact (contained_in_dfa_arcs h1 h2 harc).2.2.2.1
  · intro x s m a arcs arc h1 h2 harc
    exact (singleton_dfa_arcs h1 h2 harc).2.2.2.1
  · intro x y hxy s m a arcs arc h1 h2 harc
    exact (less_dfa_arcs h1 h2 harc).2.2.2.1 hxy
  · intro l r res arc hres harc
    exact (intersect_arcs_mem hres harc).2.2.1
  · intro v u u2 hdisj hproj
    obtain ⟨u3, hu3, -, -, hd3, -⟩ := projectArc_sound (v := v) hdisj
    rw [hproj] at hu3
    injection hu3 with hu3
    subst hu3
    exact hd3
  · intro a arcss arc harc
    exact detArcsFor_disjoint harc

theorem C9_disjointness_invariant_witness :
    (intersect_arcs (⟨Sym.sym 0, {"x"}, ∅, St.n 0⟩ : Arc Nat)
        ⟨Sym.sym 0, ∅, {"y"}, St.n 0⟩ =
      some [⟨Sym.sym 0, {"x"}, {"y"}, St.pair (St.n 0) (St.n 0)⟩]) ∧
    ({"x"} : Finset String) ∩ {"y"} = ∅ :=
  ⟨by decide,
   (C9_disjointness_invariant ({0} : Finset Nat)).2.2.2.2.2.2.1
     ⟨Sym.sym 0, {"x"}, ∅, St.n 0⟩ ⟨Sym.sym 0, ∅, {"y"}, St.n 0⟩
     [⟨Sym.sym 0, {"x"}, {"y"}, St.pair (St.n 0) (St.n 0)⟩]
     ⟨Sym.sym 0, {"x"}, {"y"}, St.pair (St.n 0) (St.n 0)⟩
     (by decide) (by decide)⟩

end M2LStr
